import Mathlib

/-!
Verification development for the flet_md_collector selection engine.

The Python sources are `md_collector.py` (application class `MarkdownCollector`)
and `controls/collapsible.py` (folder control `Collapsible`).  The engine is
embedded shallowly:

* A `Collapsible` and a file row are modelled by the inductive type `Ctrl`.
  A folder node carries its title, the cached three-valued checkbox state
  `_folder_state` (`some true` = all on, `some false` = all off, `none` =
  partially on) and its child controls.  A file row carries the checkbox
  `data` (the absolute file path), the displayed file name (the basename of
  the path, as built by `_load_directory`) and the checkbox value.
* Python mutates the control objects in place and shares them between
  `files_column.controls` and `original_controls`.  Since `_filter_files`
  always rebuilds the visible list from the restored originals, the visible
  list is a pure function of the original forest and the active query; the
  model therefore stores the original forest plus the query, and mutating
  operations write through to the forest, touching exactly the controls that
  are reachable in the current view.
* `check_values` holds the same booleans as the file checkboxes: every write
  in the source updates both together (`checkbox_changed`, the synthetic
  change events in `set_files_checked`, `_update_folder_state`,
  `_select_all_files`, `_deselect_all_files`), and hidden controls are never
  written.  The model therefore reads the selection mapping off the forest.
* Python strings are Lean `String`s; all comparisons are done on the
  underlying character lists so that concrete instances reduce in the kernel.
-/

namespace MdCollector

/-- Embeds Python `str.lower` (adequate for the ASCII names exercised here). -/
def lowerStr (s : String) : String := ⟨s.data.map Char.toLower⟩

/-- Embeds the Python substring test `q in s`. -/
def subOf (q s : String) : Bool :=
  (List.range (s.data.length + 1)).any (fun i => q.data.isPrefixOf (s.data.drop i))

/-- Embeds Python `s.endswith(suf)`. -/
def endsWithStr (s suf : String) : Bool := suf.data.isSuffixOf s.data

/-- Code-point comparison of character lists, as Python string `<=` does. -/
def lexLe : List Char → List Char → Bool
  | [], _ => true
  | _ :: _, [] => false
  | a :: as, b :: bs =>
      if a.toNat < b.toNat then true
      else if b.toNat < a.toNat then false
      else lexLe as bs

/-- Code-point comparison of strings, as Python string `<=` does. -/
def strLe (a b : String) : Bool := lexLe a.data b.data

/-- Embeds Python `sorted` / `list.sort` for an ascending key: `sorted` is a
stable sort, and a stable sort for a total preorder has a unique result, so
the stable `List.insertionSort` computes the same list. -/
def pySort (le : α → α → Bool) (l : List α) : List α :=
  l.insertionSort (fun a b => le a b)

/-- The three folder states named by the specification. -/
inductive TriState where
  | allSelected
  | noneSelected
  | mixed
deriving DecidableEq, Repr

/-- Reads the spec-level tri-state off the internal `_folder_state` value
(`True` / `False` / `None` in Python). -/
def triOf : Option Bool → TriState
  | some true => .allSelected
  | some false => .noneSelected
  | none => .mixed

/-- Modelled from the spec, section 3: the tri-state as a pure function of the
descendant file selection flags.  AllSelected iff at least one descendant file
exists and all are selected; NoneSelected iff none exist or none are selected;
Mixed otherwise. -/
def spec_tri_state (vals : List Bool) : TriState :=
  if !vals.isEmpty && vals.all (fun v => v) then .allSelected
  else if vals.isEmpty || vals.all (fun v => !v) then .noneSelected
  else .mixed

/-- The folder state computed by `Collapsible.recalc_folder_state` from the
list of checkbox values below the folder: `False` when there are no files,
otherwise `True` if all are on, `False` if none are on, `None` otherwise. -/
def folder_state_of (vals : List Bool) : Option Bool :=
  if vals.isEmpty then some false
  else if vals.all (fun v => v) then some true
  else if vals.all (fun v => !v) then some false
  else none

/-- A control in the file tree: a `Collapsible` folder (title, cached
`_folder_state`, child controls) or a file row (checkbox `data` path,
displayed basename, checkbox value). -/
inductive Ctrl where
  | file (path : String) (name : String) (val : Bool)
  | folder (title : String) (st : Option Bool) (children : List Ctrl)
deriving Repr

mutual
/-- Embeds `Collapsible.get_all_files`, projected to the data the callers
read: the checkbox path and value of every file reachable below the control
(the source returns the file controls themselves). -/
def get_all_files : Ctrl → List (String × Bool)
  | .file p _ v => [(p, v)]
  | .folder _ _ ch => get_all_files_list ch

/-- The loop of `get_all_files` over a child list. -/
def get_all_files_list : List Ctrl → List (String × Bool)
  | [] => []
  | c :: cs => get_all_files c ++ get_all_files_list cs
end

/-- The selection mapping `check_values` read off a control forest (see the
header: the dictionary always agrees with the checkbox values). -/
def check_values_of (forest : List Ctrl) : List (String × Bool) :=
  get_all_files_list forest

mutual
/-- Embeds `Collapsible.apply_filter`.  The result is the control with its
child lists replaced by the filtered ones, paired with the returned
`has_visible_files` flag.  For a file row the flag is the name match that the
folder loop (and the top-level loop in `_filter_files`) tests inline; the
control itself is never changed.  Note that the source calls
`restore_original_state` first, so the recursion always starts from the
original child lists, which is what the model stores. -/
def apply_filter (q : String) : Ctrl → Ctrl × Bool
  | .file p n v => (.file p n v, subOf q (lowerStr n))
  | .folder t st ch =>
      let proc := apply_filter_list q ch
      let kept := (proc.filter (fun e => e.2)).map (fun e => e.1)
      let nameMatch := subOf q (lowerStr t)
      (.folder t st (if nameMatch then proc.map (fun e => e.1) else kept),
       nameMatch || !kept.isEmpty)

/-- The loop of `apply_filter` over the child list: every subfolder is
filtered in place (the recursive call happens before the own-name test). -/
def apply_filter_list (q : String) : List Ctrl → List (Ctrl × Bool)
  | [] => []
  | c :: cs => apply_filter q c :: apply_filter_list q cs
end

/-- A control of the current view is visible below a folder iff the folder
name matched (then the whole original child list is kept) or its own
`has_visible_files` flag is true. -/
def child_visible (q : String) (parentMatch : Bool) (c : Ctrl) : Bool :=
  parentMatch || (apply_filter q c).2

mutual
/-- Embeds `Collapsible.set_files_checked`: sets `_folder_state` directly and
pushes the value to every file and subfolder of the current (filtered)
content list; controls hidden by the filter are not touched. -/
def set_files_checked (q : String) (b : Bool) : Ctrl → Ctrl
  | .file p n _ => .file p n b
  | .folder t _ ch =>
      .folder t (some b) (set_files_checked_list q b (subOf q (lowerStr t)) ch)

/-- The loop of `set_files_checked` over the current content list. -/
def set_files_checked_list (q : String) (b : Bool) (parentMatch : Bool) :
    List Ctrl → List Ctrl
  | [] => []
  | c :: cs =>
      (if child_visible q parentMatch c then set_files_checked q b c else c) ::
        set_files_checked_list q b parentMatch cs
end

/-- The value list that `recalc_folder_state` reads: the checkbox values of
the files of the current (filtered) content of the control. -/
def visible_vals (q : String) (c : Ctrl) : List Bool :=
  (get_all_files (apply_filter q c).1).map (fun e => e.2)

mutual
/-- Embeds the `recurse` helper of `_recalc_parent_folders` applied to one
visible control: recompute every visible subfolder bottom-up, then apply
`recalc_folder_state` to the control itself, reading the values of the files
of its current (filtered) content. -/
def recalc_folder (q : String) : Ctrl → Ctrl
  | .file p n v => .file p n v
  | .folder t st ch =>
      let ch2 := recalc_folder_list q (subOf q (lowerStr t)) ch
      .folder t (folder_state_of (visible_vals q (.folder t st ch2))) ch2

/-- The loop of `recalc_folder` over the current content list; hidden
controls are not visited and keep their cached state. -/
def recalc_folder_list (q : String) (parentMatch : Bool) : List Ctrl → List Ctrl
  | [] => []
  | c :: cs =>
      (if child_visible q parentMatch c then recalc_folder q c else c) ::
        recalc_folder_list q parentMatch cs
end

mutual
/-- Writes one file checkbox (identified by its path, the sole identity the
selection uses) as `checkbox_changed` records a user click. -/
def set_val (p : String) (b : Bool) : Ctrl → Ctrl
  | .file p' n v => if p' = p then .file p' n b else .file p' n v
  | .folder t st ch => .folder t st (set_val_list p b ch)

/-- The traversal of `set_val` over a child list. -/
def set_val_list (p : String) (b : Bool) : List Ctrl → List Ctrl
  | [] => []
  | c :: cs => set_val p b c :: set_val_list p b cs
end

mutual
/-- Whether the forest is tri-state consistent: every folder caches exactly
the state that `recalc_folder_state` would compute from all of its descendant
file values (the spec section 3 invariant, stated over the full tree). -/
def consistent : Ctrl → Bool
  | .file _ _ _ => true
  | .folder _ st ch =>
      (st == folder_state_of ((get_all_files_list ch).map (fun e => e.2))) &&
        consistent_list ch

/-- Conjunction of `consistent` over a child list. -/
def consistent_list : List Ctrl → Bool
  | [] => true
  | c :: cs => consistent c && consistent_list cs
end

/-- Embeds `_filter_files` acting on the displayed list: an empty (stripped)
query restores the original list, otherwise the visible list keeps exactly
the top-level controls whose filter flag is true. -/
def filter_files (q : String) (orig : List Ctrl) : List Ctrl :=
  if q = "" then orig
  else ((apply_filter_list q orig).filter (fun e => e.2)).map (fun e => e.1)

/-- A top-level control is traversed by the mutation handlers iff it is in
the displayed list.  With an empty query every control matches (`"" in s` is
true in Python), so this is uniform in the query. -/
def top_visible (q : String) (c : Ctrl) : Bool :=
  (apply_filter q c).2

/-- Embeds `_recalc_parent_folders`: walk the displayed top-level controls
and recompute every visible folder. -/
def recalc_parent_folders (q : String) (forest : List Ctrl) : List Ctrl :=
  forest.map (fun c => if top_visible q c then recalc_folder q c else c)

/-- Metadata stored in `file_info` by the scanner (`st_mtime` is modelled as
a natural number timestamp). -/
structure FileMeta where
  name : String
  modified : Nat
  size : Nat
deriving Repr

/-- Looks a path up in `file_info`; the scanner populates every scanned path,
so the default is never read in a scanned application state. -/
def lookup_info (info : List (String × FileMeta)) (p : String) : FileMeta :=
  match info.find? (fun e => e.1 = p) with
  | some e => e.2
  | none => ⟨"", 0, 0⟩

/-- The sort keys offered by the dropdown. -/
inductive SortKey where
  | byName
  | byDate
  | bySize
deriving DecidableEq, Repr

/-- Whether a control is a `Collapsible`. -/
def is_folder : Ctrl → Bool
  | .folder _ _ _ => true
  | .file _ _ _ => false

/-- Embeds `get_sort_value` comparison for two controls of the same
partition: folders always compare by lowercased title whatever the key;
files compare by the chosen key of their `file_info` record. -/
def sort_value_le (info : List (String × FileMeta)) (k : SortKey) :
    Ctrl → Ctrl → Bool
  | .folder t _ _, .folder t' _ _ => strLe (lowerStr t) (lowerStr t')
  | .file p _ _, .file p' _ _ =>
      match k with
      | .byName => strLe (lowerStr (lookup_info info p).name)
                         (lowerStr (lookup_info info p').name)
      | .byDate => (lookup_info info p).modified ≤ (lookup_info info p').modified
      | .bySize => (lookup_info info p).size ≤ (lookup_info info p').size
  | _, _ => true

/-- Embeds `_sort_files` on a control list: partition into folders and files
(preserving relative order), sort each partition by the key — Python
`list.sort` is stable, and with `reverse=True` it is the stable descending
sort, which the stable ascending sort of the flipped comparison computes —
and concatenate folders before files. -/
def sort_controls (info : List (String × FileMeta)) (k : SortKey) (desc : Bool)
    (forest : List Ctrl) : List Ctrl :=
  let le := fun a b =>
    if desc then sort_value_le info k b a else sort_value_le info k a b
  pySort le (forest.filter is_folder) ++ pySort le (forest.filter (fun c => !is_folder c))

/-- The application state the claims observe: the original control forest
(structure fixed by the scan, top level permuted by sorting while no filter
is active; checkbox values and cached folder states are current), the active
stripped lowercased query (empty means no filter) and `file_info`. -/
structure App where
  forest : List Ctrl
  query : String
  file_info : List (String × FileMeta)

/-- The displayed list `files_column.controls` of a state. -/
def controls_of (a : App) : List Ctrl :=
  filter_files a.query a.forest

/-- Replaces the control at a child-index path of the forest. -/
def modify_at (pos : List Nat) (f : Ctrl → Ctrl) (forest : List Ctrl) : List Ctrl :=
  match pos with
  | [] => forest
  | [i] => forest.modify f i
  | i :: rest =>
      forest.modify (fun c => match c with
        | .folder t st ch => .folder t st (modify_at rest f ch)
        | c => c) i

/-- Reads the control at a child-index path of the forest. -/
def node_at (pos : List Nat) (forest : List Ctrl) : Option Ctrl :=
  match pos with
  | [] => none
  | [i] => forest.get? i
  | i :: rest =>
      match forest.get? i with
      | some (.folder _ _ ch) => node_at rest ch
      | _ => none

/-- The public calls of the engine, as the UI event handlers expose them.
`setFile` is a click on a file checkbox (`checkbox_changed`); `folderClick`
is a click on a folder checkbox (`_folder_checkbox_clicked`, the toggle);
`setFolder` is the same pipeline with the value given explicitly (the spec
`setFolder`); the filter calls are search-box changes (the text already
stripped and lowercased); `sortFiles` is the dropdown; `selectAll` and
`deselectAll` are the toolbar buttons. -/
inductive Op where
  | setFile (path : String) (b : Bool)
  | folderClick (pos : List Nat)
  | setFolder (pos : List Nat) (b : Bool)
  | applyFilterOp (q : String)
  | clearFilter
  | sortFiles (k : SortKey) (desc : Bool)
  | selectAll
  | deselectAll
deriving Repr

/-- The `setFolder` pipeline: `set_files_checked` on the clicked folder, then
the `on_folder_checked` callback `_update_folder_state` runs
`_recalc_parent_folders` (the synthetic checkbox change events fired inside
`set_files_checked` run the same full recalculation, so the net state is the
final recalculation). -/
def set_folder_step (pos : List Nat) (b : Bool) (a : App) : App :=
  match node_at pos a.forest with
  | some (.folder _ _ _) =>
      let f := modify_at pos (set_files_checked a.query b) a.forest
      { a with forest := recalc_parent_folders a.query f }
  | _ => a

/-- Embeds `_select_all_files` / `_deselect_all_files`, which walk only the
displayed controls: visible folders get `set_files_checked`, visible
top-level files get their checkbox written, hidden controls are untouched.
The synthetic change events fired along the way additionally recompute
visible folder states; those recomputations never write a file checkbox or a
hidden control, and no theorem below reads a folder state after this call,
so they are omitted here. -/
def select_all_step (b : Bool) (a : App) : App :=
  { a with forest := a.forest.map (fun c =>
      if top_visible a.query c then set_files_checked a.query b c else c) }

/-- One public call. -/
def step (op : Op) (a : App) : App :=
  match op with
  | .setFile p b =>
      { a with forest := recalc_parent_folders a.query (set_val_list p b a.forest) }
  | .folderClick pos =>
      match node_at pos a.forest with
      | some (.folder _ st _) => set_folder_step pos (!(st == some true)) a
      | _ => a
  | .setFolder pos b => set_folder_step pos b a
  | .applyFilterOp q => { a with query := q }
  | .clearFilter => { a with query := "" }
  | .sortFiles k desc =>
      if (controls_of a).isEmpty then a
      else if a.query = "" then
        { a with forest := sort_controls a.file_info k desc a.forest }
      else
        -- with a filter active the source sorts only the derived displayed
        -- list; the originals, selections and folder states are unchanged,
        -- and the next filter call rebuilds the display from the originals
        a
  | .selectAll => select_all_step true a
  | .deselectAll => select_all_step false a

/-- A sequence of public calls. -/
def run_ops (ops : List Op) (a : App) : App :=
  ops.foldl (fun a op => step op a) a

/-!  The directory scanner (`_load_files` / `_load_directory` /
`_should_exclude`).  The filesystem is embedded as a static tree: a file node
carries the result of `os.path.getsize` (`none` when the size stat raises), a
directory node carries the result of `os.listdir` (`none` when listing
raises).  Exceptions are values here, so the sequential source loop — which
recurses into a subdirectory only when it is reached and not excluded — can
be modelled by computing every child result eagerly and discarding the
unused ones: the functions are pure, so the results are identical. -/

mutual
/-- A filesystem node. -/
inductive FSNode where
  | file (size : Option Nat)
  | dir (listing : Option FSEntries)

/-- A directory listing: named entries in `os.listdir` order. -/
inductive FSEntries where
  | nil
  | cons (name : String) (node : FSNode) (rest : FSEntries)
end

/-- A listing as an ordinary list of named nodes. -/
def FSEntries.toList : FSEntries → List (String × FSNode)
  | .nil => []
  | .cons n node rest => (n, node) :: rest.toList

/-- Whether the node is a directory. -/
def FSNode.isDirN : FSNode → Bool
  | .dir _ => true
  | .file _ => false

/-- The exclusion rule set `exclude_patterns`. -/
structure ExcludePatterns where
  extensions : List String
  files : List String
  folders : List String
  max_file_size : Nat

/-- What `_should_exclude` observes about one directory entry through
`os.path.isdir`, `os.path.isfile` and `os.path.getsize`: the two type tests
are independent booleans (a broken link is neither), and a `none` size means
the `getsize` call raises. -/
structure EntryStat where
  name : String
  isDir : Bool
  isFile : Bool
  size : Option Nat

/-- Embeds `_should_exclude`: extension suffix, exact file name, directory
with an excluded folder name, then for files the size ceiling where a
failing stat is caught and excluded. -/
def should_exclude (pats : ExcludePatterns) (e : EntryStat) : Bool :=
  if pats.extensions.any (fun ext => endsWithStr e.name ext) then true
  else if pats.files.any (fun x => x = e.name) then true
  else if e.isDir && pats.folders.any (fun x => x = e.name) then true
  else if e.isFile then
    match e.size with
    | some s => decide (pats.max_file_size < s)
    | none => true
  else false

/-- The `EntryStat` of a filesystem node. -/
def stat_of (name : String) : FSNode → EntryStat
  | .file sz => ⟨name, false, true, sz⟩
  | .dir _ => ⟨name, true, false, none⟩

/-- Embeds `os.path.join` on the posix separator used by the scanned trees. -/
def join_path (d n : String) : String := d ++ "/" ++ n

/-- The sequential folder loop of `_load_directory` over the sorted
subdirectory results: a failed recursive call raises, so the loop stops and
nothing later is appended (the partial list of the failed child is local and
discarded); a successful subdirectory is appended only when it has
content. -/
def load_folders_seq : List (String × FSNode × (List Ctrl × Bool)) → List Ctrl × Bool
  | [] => ([], true)
  | (n, _, (sub, ok)) :: rest =>
      if !ok then ([], false)
      else
        let here : List Ctrl := if sub.isEmpty then [] else [.folder n (some false) sub]
        let r := load_folders_seq rest
        (here ++ r.1, r.2)

/-- The body of `_load_directory` after listing: drop excluded entries, sort
subdirectory and file names ascending, recurse through the subdirectories in
order, then append a file row (checkbox unchecked, `_folder_state` of new
folders is `False`) for every kept file.  The boolean is false when an
exception escapes this directory. -/
def assemble_directory (pats : ExcludePatterns) (path : String)
    (results : List (String × FSNode × (List Ctrl × Bool))) : List Ctrl × Bool :=
  let kept := results.filter (fun r => !(should_exclude pats (stat_of r.1 r.2.1)))
  let folders := pySort (fun a b => strLe a.1 b.1)
    (kept.filter (fun r => r.2.1.isDirN))
  let fils := pySort (fun a b => strLe a.1 b.1)
    (kept.filter (fun r => !r.2.1.isDirN))
  let fr := load_folders_seq folders
  if !fr.2 then (fr.1, false)
  else (fr.1 ++ fils.map (fun r => Ctrl.file (join_path path r.1) r.1 false), true)

mutual
/-- Embeds `_load_directory` on a directory node: the list of controls the
call appends for this directory, paired with false when an exception escapes
(an unlistable directory, or a failure deeper in a visited subtree).  The
population of `file_info` and `check_values` (name, size, mtime, initial
`False`) is not needed by the theorems and is omitted. -/
def load_directory (pats : ExcludePatterns) (path : String) : FSNode → List Ctrl × Bool
  | .file _ => ([], true)
  | .dir none => ([], false)
  | .dir (some es) => assemble_directory pats path (load_entries pats path es)

/-- The eagerly computed recursive results of every entry of a listing. -/
def load_entries (pats : ExcludePatterns) (path : String) :
    FSEntries → List (String × FSNode × (List Ctrl × Bool))
  | .nil => []
  | .cons n node rest =>
      (n, node, load_directory pats (join_path path n) node) :: load_entries pats path rest
end

/-- Embeds `_load_files`: the top-level call catches any exception from
`_load_directory`, shows an error and keeps whatever was already appended to
`files_column.controls`, so it never raises and yields the partial forest. -/
def load_files (pats : ExcludePatterns) (rootPath : String) (root : FSNode) : List Ctrl :=
  (load_directory pats rootPath root).1

mutual
/-- Whether a scan of the node raises: the listing fails, or some visited —
not excluded — subdirectory fails recursively.  File entries never raise
(a failing size stat is caught inside `_should_exclude` and excludes the
file). -/
def scan_fails (pats : ExcludePatterns) : FSNode → Bool
  | .file _ => false
  | .dir none => true
  | .dir (some es) => entries_fail pats es

/-- Whether some visited entry of a listing fails. -/
def entries_fail (pats : ExcludePatterns) : FSEntries → Bool
  | .nil => false
  | .cons n node rest =>
      (node.isDirN && !(should_exclude pats (stat_of n node)) && scan_fails pats node) ||
        entries_fail pats rest
end

/-!  The output generator (`update_markdown_output` /
`_generate_tree_structure`).  The keys of `check_values` are absolute paths;
`os.path.relpath` against the scanned root followed by `os.path.normpath`
and the `os.sep` split turns each into the list of its root-relative
segments, which is how the model carries them.  The Python nested `dict`
(insertion ordered, value `None` for a file) is the tree type below. -/

/-- The nested dictionary built by `add_to_tree`: `leaf` is the Python
`None` marking a file, `node` a dict with its entries in insertion order. -/
inductive PTree where
  | leaf
  | node (entries : List (String × PTree))

/-- Dictionary lookup. -/
def assoc_lookup (k : String) : List (String × PTree) → Option PTree
  | [] => none
  | (k', v) :: rest => if k' = k then some v else assoc_lookup k rest

/-- Dictionary assignment: update in place when the key exists, append
otherwise, as Python dict assignment does. -/
def assoc_set (k : String) (v : PTree) : List (String × PTree) → List (String × PTree)
  | [] => [(k, v)]
  | (k', v') :: rest => if k' = k then (k, v) :: rest else (k', v') :: assoc_set k v rest

/-- Embeds `add_to_tree` for one relative path, split into segments: the
last segment is assigned `None`, an intermediate segment descends into the
existing subdict, creating an empty one when missing.  (Descending into an
existing `None` value would raise in Python; that needs one selected path to
be a proper extension of another, which distinct filesystem paths exclude —
here the descent leaves the tree unchanged.) -/
def insert_path : List String → PTree → PTree
  | [], t => t
  | [s], .node es => .node (assoc_set s .leaf es)
  | s :: rest, .node es =>
      let sub := match assoc_lookup s es with
        | some t => t
        | none => .node []
      .node (assoc_set s (insert_path rest sub) es)
  | _, .leaf => .leaf

/-- The tree of all checked paths, inserted in `check_values` order. -/
def build_tree (sel : List (List String)) : PTree :=
  sel.foldl (fun t p => insert_path p t) (.node [])

/-- Embeds `sorted(subtree.items())`: the keys of a dict are distinct, so
the Python tuple order is the key order. -/
def sort_entries (es : List (String × PTree)) : List (String × PTree) :=
  pySort (fun a b => strLe a.1 b.1) es

/-- Whether the entries list of a node is empty (`if not tree`). -/
def PTree.isEmptyT : PTree → Bool
  | .leaf => true
  | .node [] => true
  | .node (_ :: _) => false

mutual
/-- Embeds `build_str`: render the sorted entries of a dict, one line with a
connector per entry, recursing into dict values with the extended prefix. -/
def build_str : PTree → String → String
  | .leaf, _ => ""
  | .node es, pre => String.intercalate "\n" (render_sorted (sort_entries es) pre)
termination_by t _ => sizeOf t
decreasing_by
  have hgen : ∀ (l l' : List (String × PTree)), l.Perm l' → sizeOf l = sizeOf l' := by
    intro l l' h
    induction h with
    | nil => rfl
    | cons x _ ih => simp [ih]
    | swap x y l => simp; omega
    | trans _ _ ih1 ih2 => omega
  have heq : sizeOf (sort_entries es) = sizeOf es :=
    hgen _ _ (List.perm_insertionSort _ es)
  simp only [heq, PTree.node.sizeOf_spec]
  omega

/-- The `lines` list of `build_str` for an already sorted entries list: the
last entry gets the corner connector, the others the tee connector; the
block of a dict value is one appended element rendered with the prefix
extended by the continuation token. -/
def render_sorted : List (String × PTree) → String → List String
  | [], _ => []
  | [(n, t)], pre =>
      (pre ++ "└── " ++ n) ::
        (match t with
          | .leaf => []
          | .node es' => [build_str (.node es') (pre ++ "    ")])
  | (n, t) :: e :: rest, pre =>
      ((pre ++ "├── " ++ n) ::
        (match t with
          | .leaf => []
          | .node es' => [build_str (.node es') (pre ++ "│   ")])) ++
        render_sorted (e :: rest) pre
termination_by l _ => sizeOf l
decreasing_by
  all_goals (simp_wf; try omega)
end

/-- Embeds `_generate_tree_structure`, with the selected relative paths
already split into segments: empty selection yields the empty string,
otherwise the fenced block headed by the basename of the root folder. -/
def generate_tree_structure (rootName : String)
    (cv : List (List String × Bool)) : String :=
  let tree := build_tree ((cv.filter (fun e => e.2)).map (fun e => e.1))
  if tree.isEmptyT then ""
  else "# Directory Structure\n```\n" ++ rootName ++ "\n" ++
    build_str tree "" ++ "\n```\n\n"

/-- Displays a relative path as `os.path.relpath` returns it. -/
def rel_display (segs : List String) : String := String.intercalate "/" segs

/-- The block `update_markdown_output` emits for one checked file: reading
is `open(...).read()` with `errors="ignore"` (decode errors substitute, they
do not raise), so a read outcome is either the decoded text or the message
of the caught exception, which replaces the content inline. -/
def doc_block (readF : List String → Except String String)
    (segs : List String) : String :=
  match readF segs with
  | .ok content => "## " ++ rel_display segs ++ "\n```\n" ++ content ++ "\n```"
  | .error err => "## " ++ rel_display segs ++ "\n```\nエラー: " ++ err ++ "\n```"

/-- Embeds `update_markdown_output`: the tree block followed by the blocks
of all checked files in `check_values` order, joined by newlines.  The
function is total: a failing read degrades only its own block. -/
def update_markdown_output (rootName : String)
    (cv : List (List String × Bool))
    (readF : List String → Except String String) : String :=
  generate_tree_structure rootName cv ++
    String.intercalate "\n" ((cv.filter (fun e => e.2)).map (fun e => doc_block readF e.1))

/-!  Derived definitions the theorems quantify over. -/

/-- Whether a public call is one of the two filter calls. -/
def is_filter_call : Op → Bool
  | .applyFilterOp _ => true
  | .clearFilter => true
  | _ => false

/-- The calls of the selection claim without the filter application: file
clicks, folder clicks, explicit folder sets, clearing the filter and
sorting.  (The select-all toolbar buttons are a separate operation outside
that claim.) -/
def no_filter_call : Op → Bool
  | .setFile _ _ => true
  | .folderClick _ => true
  | .setFolder _ _ => true
  | .clearFilter => true
  | .sortFiles _ _ => true
  | _ => false

/-- The paths of the files below one control in the current view. -/
def visible_file_paths (q : String) (c : Ctrl) : List String :=
  (get_all_files (apply_filter q c).1).map (fun e => e.1)

/-- The paths of all files reachable in the current view. -/
def visible_paths (q : String) (forest : List Ctrl) : List String :=
  (check_values_of (filter_files q forest)).map (fun e => e.1)

/-- The file paths a traversal of the current view reaches below a child
list whose parent has the given name-match flag. -/
def vis_paths_list (q : String) (parentMatch : Bool) (ch : List Ctrl) : List String :=
  ch.flatMap (fun c => if child_visible q parentMatch c then visible_file_paths q c else [])

mutual
/-- Every nonempty segment path to a node of the prefix tree. -/
def ptree_paths : PTree → List (List String)
  | .leaf => []
  | .node es => ptree_paths_entries es

/-- The paths contributed by an entries list. -/
def ptree_paths_entries : List (String × PTree) → List (List String)
  | [] => []
  | (n, t) :: rest =>
      [n] :: ((ptree_paths t).map (fun p => n :: p) ++ ptree_paths_entries rest)
end

mutual
/-- The segment paths at which the prefix tree stores `None` (a file). -/
def leaf_paths : PTree → List (List String)
  | .leaf => []
  | .node es => leaf_paths_entries es

/-- The leaf paths contributed by an entries list. -/
def leaf_paths_entries : List (String × PTree) → List (List String)
  | [] => []
  | (n, t) :: rest =>
      (match t with
        | .leaf => [[n]]
        | .node _ => (leaf_paths t).map (fun p => n :: p)) ++ leaf_paths_entries rest
end

/-- Modelled from the spec, section 4.5: the connector of a sibling, a
corner for the last one and a tee for the others. -/
def connector_of (isLast : Bool) : String :=
  if isLast then "└── " else "├── "

/-- Modelled from the spec, section 4.5: the continuation token a nested
level adds under a sibling. -/
def continuation_of (isLast : Bool) : String :=
  if isLast then "    " else "│   "

/-- Modelled from the spec, section 4.5: one rendered level, with the
connector and the continuation token selected by whether the sibling index
is the last one. -/
def spec_level (l : List (String × PTree)) (pre : String) : List String :=
  (l.enum).flatMap (fun ie =>
    (pre ++ connector_of (ie.1 = l.length - 1) ++ ie.2.1) ::
      match ie.2.2 with
      | .leaf => []
      | .node es' => [build_str (.node es') (pre ++ continuation_of (ie.1 = l.length - 1))])

/-- A selection list is filesystem-valid when every path is nonempty and no
two selected paths extend one another properly (two distinct filesystem
paths are never in the prefix relation). -/
def valid_selection (sel : List (List String)) : Prop :=
  (∀ p ∈ sel, p ≠ []) ∧
    ∀ p ∈ sel, ∀ p' ∈ sel, p <+: p' → p = p'

mutual
/-- Well-formed prefix trees: every dict has pairwise distinct keys, as a
Python dict does. -/
def wf_tree : PTree → Prop
  | .leaf => True
  | .node es => wf_entries es

/-- Well-formedness of an entries list: well-formed subtrees and a key
distinct from all later keys. -/
def wf_entries : List (String × PTree) → Prop
  | [] => True
  | (n, t) :: rest => wf_tree t ∧ wf_entries rest ∧ ∀ e ∈ rest, e.1 ≠ n
end

/-!  Concrete instances used by counterexamples and witnesses. -/

/-- Scenario D of the spec: folder `readonly` with the file `x.txt`. -/
def scenD : Ctrl :=
  .folder "readonly" (some false) [.file "/r/readonly/x.txt" "x.txt" false]

/-- A matching folder with a non-matching subfolder holding one file. -/
def c1tree : Ctrl :=
  .folder "readonly" (some false)
    [.folder "sub" (some false) [.file "/r/readonly/sub/x.txt" "x.txt" false]]

/-- Folder `x` holding `apple.txt` and `banana.txt`, both unselected. -/
def xFolder : Ctrl :=
  .folder "x" (some false)
    [.file "/r/x/apple.txt" "apple.txt" false, .file "/r/x/banana.txt" "banana.txt" false]

/-- The scanned state holding only `xFolder`, no filter active. -/
def app0 : App := ⟨[xFolder], "", []⟩

/-- `app0` after `applyFilter "apple"` and `setFile apple.txt true`. -/
def app2 : App := run_ops [.applyFilterOp "apple", .setFile "/r/x/apple.txt" true] app0

/-- `app0` after `applyFilter "apple"` and `setFolder x true`. -/
def app4 : App := run_ops [.applyFilterOp "apple", .setFolder [0] true] app0

/-- A mixed folder (one file on, one off) with its consistent cached state. -/
def mixApp : App :=
  ⟨[.folder "x" none
      [.file "/r/x/a.txt" "a.txt" true, .file "/r/x/b.txt" "b.txt" false]], "", []⟩

/-- A directory whose listing has an unlistable subdirectory `bad` next to a
listable subdirectory `good` holding one file. -/
def badFS : FSNode :=
  .dir (some (.cons "bad" (.dir none)
    (.cons "good" (.dir (some (.cons "g.txt" (.file (some 1)) .nil))) .nil)))

/-- The `good` subtree of `badFS` alone. -/
def goodFS : FSNode :=
  .dir (some (.cons "good" (.dir (some (.cons "g.txt" (.file (some 1)) .nil))) .nil))

/-- A directory where the unlistable subdirectory sorts after a listable
one. -/
def lateFailFS : FSNode :=
  .dir (some (.cons "zbad" (.dir none)
    (.cons "agood" (.dir (some (.cons "g.txt" (.file (some 1)) .nil))) .nil)))

/-- An empty exclusion rule set with a large size ceiling. -/
def noPats : ExcludePatterns := ⟨[], [], [], 1000000⟩

/-- The exclusion rules of Scenario B: drop the `.pyc` extension. -/
def pycPats : ExcludePatterns := ⟨[".pyc"], [], [], 1000000⟩

/-- The directory of Scenario B: `a.py` and `a.pyc`. -/
def scenBFS : FSNode :=
  .dir (some (.cons "a.py" (.file (some 10)) (.cons "a.pyc" (.file (some 10)) .nil)))

/-- The selection of Scenario A: `docs/readme.md` selected,
`docs/img/logo.png` not. -/
def scenACv : List (List String × Bool) :=
  [(["docs", "readme.md"], true), (["docs", "img", "logo.png"], false)]

/-- The selection of Scenario E: `missing.txt` and `other.txt` selected. -/
def scenECv : List (List String × Bool) :=
  [(["missing.txt"], true), (["other.txt"], true)]

/-- The read outcomes of Scenario E: `missing.txt` no longer exists, the
other file reads fine. -/
def scenERead (p : List String) : Except String String :=
  if p = ["missing.txt"] then .error "No such file or directory"
  else .ok "hello"

/-!  Helper lemmas. -/

theorem ctrl_induction (P : Ctrl → Prop) (hf : ∀ p n v, P (.file p n v))
    (hd : ∀ t st ch, (∀ c ∈ ch, P c) → P (.folder t st ch)) : ∀ c, P c :=
  fun c =>
    Ctrl.rec (motive_1 := P) (motive_2 := fun l => ∀ x ∈ l, P x) hf hd
      (fun x hx => absurd hx (List.not_mem_nil x))
      (fun _ _ ph pt x hx => by
        rcases List.mem_cons.mp hx with h | h
        · exact h ▸ ph
        · exact pt x h) c

theorem subOf_empty (s : String) : subOf "" s = true := by
  refine List.any_eq_true.mpr ⟨0, List.mem_range.mpr (Nat.succ_pos _), ?_⟩
  have hd : "".data = [] := rfl
  rw [hd]
  exact List.isPrefixOf_iff_prefix.mpr List.nil_prefix

theorem apply_filter_list_eq (q : String) (l : List Ctrl) :
    apply_filter_list q l = l.map (apply_filter q) := by
  induction l with
  | nil => rfl
  | cons c cs ih => simp [apply_filter_list, ih]

theorem apply_filter_empty : ∀ c, apply_filter "" c = (c, true) := by
  refine ctrl_induction _ ?_ ?_
  · intro p n v
    simp [apply_filter, subOf_empty]
  · intro t st ch ih
    have hl : apply_filter_list "" ch = ch.map (fun c => (c, true)) := by
      rw [apply_filter_list_eq]
      exact List.map_congr_left ih
    simp only [apply_filter, hl, subOf_empty, List.map_map, if_pos, Bool.true_or]
    have hid : ((fun (e : Ctrl × Bool) => e.1) ∘ fun c => (c, true)) = id := rfl
    simp [hid]

theorem get_all_files_list_eq (l : List Ctrl) :
    get_all_files_list l = l.flatMap get_all_files := by
  induction l with
  | nil => rfl
  | cons c cs ih => simp [get_all_files_list, ih]

theorem consistent_list_eq (l : List Ctrl) :
    consistent_list l = l.all consistent := by
  induction l with
  | nil => rfl
  | cons c cs ih => simp [consistent_list, ih]

theorem set_val_list_eq (p : String) (b : Bool) (l : List Ctrl) :
    set_val_list p b l = l.map (set_val p b) := by
  induction l with
  | nil => rfl
  | cons c cs ih => simp [set_val_list, ih]

theorem set_files_checked_list_true (q : String) (b : Bool) (l : List Ctrl) :
    set_files_checked_list q b true l = l.map (set_files_checked q b) := by
  induction l with
  | nil => rfl
  | cons c cs ih => simp [set_files_checked_list, child_visible, ih]

theorem recalc_folder_list_true (q : String) (l : List Ctrl) :
    recalc_folder_list q true l = l.map (recalc_folder q) := by
  induction l with
  | nil => rfl
  | cons c cs ih => simp [recalc_folder_list, child_visible, ih]

/-!  Claim C1. -/

/-- C1, counterexample: for the query `read`, the folder `readonly` matches
by name but does not keep its unfiltered subtree — its non-matching
subfolder `sub` loses the child `x.txt`, so a child at depth two is
individually filtered, contradicting the claim at this input. -/
theorem c1_counterexample :
    subOf "read" (lowerStr "readonly") = true ∧
    (apply_filter "read" c1tree).1 =
      .folder "readonly" (some false) [.folder "sub" (some false) []] ∧
    get_all_files c1tree = [("/r/readonly/sub/x.txt", false)] ∧
    get_all_files (apply_filter "read" c1tree).1 = [] ∧
    (apply_filter "read" c1tree).1 ≠ c1tree := by
  refine ⟨by decide, by rfl, by rfl, by rfl, fun h => ?_⟩
  have h2 := congrArg (fun c => (get_all_files c).length) h
  simp [c1tree, apply_filter, apply_filter_list, get_all_files, get_all_files_list] at h2

/-- C1, amended: when the name of a folder contains the query, the filter
keeps the folder with its full direct child list — every direct child is
retained, and direct file children are retained unchanged — and reports a
match; but the recursion is not short-circuited: each direct subfolder is
still replaced by its own recursively filtered version, so children of
subfolders are individually filtered. -/
theorem c1_name_match_keeps_direct_children (q t : String) (st : Option Bool)
    (ch : List Ctrl) (h : subOf q (lowerStr t) = true) :
    (apply_filter q (.folder t st ch)).2 = true ∧
    (apply_filter q (.folder t st ch)).1 =
      .folder t st ((apply_filter_list q ch).map (fun e => e.1)) ∧
    List.Forall₂ (fun c c' => c' = (apply_filter q c).1 ∧ (is_folder c = false → c' = c))
      ch ((apply_filter_list q ch).map (fun e => e.1)) := by
  refine ⟨by simp [apply_filter, h], by simp [apply_filter, h], ?_⟩
  rw [apply_filter_list_eq, List.map_map]
  induction ch with
  | nil => exact List.Forall₂.nil
  | cons c cs ih =>
      refine List.Forall₂.cons ⟨rfl, fun hff => ?_⟩ ih
      cases c with
      | file p n v => rfl
      | folder t' st' ch' => simp [is_folder] at hff

/-- C1, witness: the amended theorem applied to Scenario D — the folder
`readonly` with direct file child `x.txt` under query `read` keeps the file
although its own name does not match. -/
theorem c1_witness :
    subOf "read" (lowerStr "readonly") = true ∧
    (apply_filter "read" scenD).2 = true ∧
    (apply_filter "read" scenD).1 = scenD := by
  have h := c1_name_match_keeps_direct_children "read" "readonly" (some false)
    [.file "/r/readonly/x.txt" "x.txt" false] (by decide)
  exact ⟨by decide, h.1, by rfl⟩

/-!  Claim C3. -/

/-- C3: a folder checkbox click performs `setFolder(folder, false)` exactly
when the cached tri-state is AllSelected, and `setFolder(folder, true)` in
every other case — Mixed and NoneSelected both resolve to selecting. -/
theorem c3_toggle_folder (a : App) (pos : List Nat) (t : String) (st : Option Bool)
    (ch : List Ctrl) (h : node_at pos a.forest = some (.folder t st ch)) :
    (triOf st = .allSelected → step (.folderClick pos) a = step (.setFolder pos false) a) ∧
    (triOf st ≠ .allSelected → step (.folderClick pos) a = step (.setFolder pos true) a) := by
  constructor <;> intro ht
  · have hst : st = some true := by
      cases st with
      | none => simp [triOf] at ht
      | some b => cases b
                  · simp [triOf] at ht
                  · rfl
    subst hst
    simp [step, h]
  · have hst : (st == some true) = false := by
      cases st with
      | none => rfl
      | some b => cases b
                  · rfl
                  · simp [triOf] at ht
    simp [step, h, hst]

/-- C3, witness: Scenario C — a Mixed folder (file `a.txt` on, `b.txt` off)
is toggled to `setFolder(true)`, after which both files are selected and the
cached state reads AllSelected. -/
theorem c3_witness :
    node_at [0] mixApp.forest =
      some (.folder "x" none
        [.file "/r/x/a.txt" "a.txt" true, .file "/r/x/b.txt" "b.txt" false]) ∧
    triOf none ≠ TriState.allSelected ∧
    step (.folderClick [0]) mixApp = step (.setFolder [0] true) mixApp ∧
    check_values_of (step (.folderClick [0]) mixApp).forest =
      [("/r/x/a.txt", true), ("/r/x/b.txt", true)] ∧
    (step (.folderClick [0]) mixApp).forest =
      [.folder "x" (some true)
        [.file "/r/x/a.txt" "a.txt" true, .file "/r/x/b.txt" "b.txt" true]] := by
  have h := (c3_toggle_folder mixApp [0] "x" none
    [.file "/r/x/a.txt" "a.txt" true, .file "/r/x/b.txt" "b.txt" false] rfl).2 (by decide)
  exact ⟨rfl, by decide, h, by rfl, by rfl⟩

/-!  Claim C5. -/

/-- C5: `_should_exclude` excludes an entry iff its name ends with an
excluded extension suffix, or equals an excluded file name exactly, or the
entry is a directory with an excluded folder name, or it is a file whose
size exceeds the ceiling — where a failing size stat (`none`) is excluded,
never included. -/
theorem c5_should_exclude_iff (pats : ExcludePatterns) (e : EntryStat) :
    should_exclude pats e = true ↔
      ((∃ ext ∈ pats.extensions, endsWithStr e.name ext = true) ∨
       e.name ∈ pats.files ∨
       (e.isDir = true ∧ e.name ∈ pats.folders) ∨
       (e.isFile = true ∧
         (e.size = none ∨ ∃ s, e.size = some s ∧ pats.max_file_size < s))) := by
  rcases e with ⟨name, isDir, isFile, size⟩
  simp only [should_exclude]
  split_ifs with h1 h2 h3 h4
  · simp only [List.any_eq_true] at h1
    simp [h1]
  · simp only [List.any_eq_true, decide_eq_true_eq] at h2
    obtain ⟨x, hx, rfl⟩ := h2
    simp [hx]
  · simp only [Bool.and_eq_true, List.any_eq_true, decide_eq_true_eq] at h3
    obtain ⟨hd, x, hx, rfl⟩ := h3
    simp [hd, hx]
  · simp only [Bool.and_eq_true, List.any_eq_true, decide_eq_true_eq] at h1 h2 h3
    cases size with
    | some s =>
        constructor
        · intro hlt
          exact Or.inr (Or.inr (Or.inr ⟨h4, Or.inr ⟨s, rfl, of_decide_eq_true hlt⟩⟩))
        · rintro (he | hmem | ⟨hd, hmem⟩ | ⟨_, hnone | ⟨s', hs', hlt⟩⟩)
          · exact (h1 he).elim
          · exact (h2 ⟨name, hmem, rfl⟩).elim
          · exact (h3 ⟨hd, name, hmem, rfl⟩).elim
          · exact (Option.some_ne_none s hnone).elim
          · cases hs'
            exact decide_eq_true hlt
    | none =>
        constructor
        · intro _
          exact Or.inr (Or.inr (Or.inr ⟨h4, Or.inl rfl⟩))
        · intro _
          rfl
  · simp only [Bool.and_eq_true, List.any_eq_true, decide_eq_true_eq] at h1 h2 h3
    constructor
    · intro hfalse
      cases hfalse
    · rintro (he | hmem | ⟨hd, hmem⟩ | ⟨hf, _⟩)
      · exact (h1 he).elim
      · exact (h2 ⟨name, hmem, rfl⟩).elim
      · exact (h3 ⟨hd, name, hmem, rfl⟩).elim
      · exact (h4 hf).elim

/-!  Claim C7. -/

/-- C7: any sequence of `applyFilter` and `clearFilter` calls leaves every
file selection flag unchanged — the snapshot of the path-to-selected mapping
is identical before and after, and the original forest itself is untouched
(filtering only changes the derived visible list). -/
theorem c7_filter_preserves_selection (ops : List Op) (a : App)
    (h : ops.all is_filter_call = true) :
    (run_ops ops a).forest = a.forest ∧
    check_values_of (run_ops ops a).forest = check_values_of a.forest := by
  have hf : ∀ (l : List Op) (b : App), l.all is_filter_call = true →
      (run_ops l b).forest = b.forest := by
    intro l
    induction l with
    | nil => intro b _; rfl
    | cons op rest ih =>
        intro b hall
        simp only [List.all_cons, Bool.and_eq_true] at hall
        have hstep : (step op b).forest = b.forest := by
          cases op <;> simp [is_filter_call] at hall ⊢ <;> simp [step]
        show (run_ops rest (step op b)).forest = b.forest
        rw [ih (step op b) hall.2, hstep]
  exact ⟨hf ops a h, by rw [hf ops a h]⟩

/-- C7, witness: a concrete apply and clear sequence on the mixed state
keeps the selection snapshot. -/
theorem c7_witness :
    ([Op.applyFilterOp "a", Op.clearFilter, Op.applyFilterOp "zz"].all is_filter_call
      = true) ∧
    check_values_of (run_ops [.applyFilterOp "a", .clearFilter, .applyFilterOp "zz"]
        mixApp).forest = check_values_of mixApp.forest :=
  ⟨by decide,
   (c7_filter_preserves_selection [.applyFilterOp "a", .clearFilter, .applyFilterOp "zz"]
      mixApp (by decide)).2⟩

/-!  Claim C9. -/

/-- C9: generation is a total function of the read outcomes — a file whose
read fails contributes a heading with an inline error message in place of
content, every other selected file still contributes its block, and the
output is the tree block followed by the joined blocks. -/
theorem c9_generation_degrades_per_file (rootName : String)
    (cv : List (List String × Bool)) (readF : List String → Except String String) :
    update_markdown_output rootName cv readF =
      generate_tree_structure rootName cv ++
        String.intercalate "\n"
          ((cv.filter (fun e => e.2)).map (fun e => doc_block readF e.1)) ∧
    (∀ p, (p, true) ∈ cv →
      doc_block readF p ∈ (cv.filter (fun e => e.2)).map (fun e => doc_block readF e.1)) ∧
    (∀ p err, readF p = .error err →
      doc_block readF p = "## " ++ rel_display p ++ "\n```\nエラー: " ++ err ++ "\n```") ∧
    (∀ p content, readF p = .ok content →
      doc_block readF p = "## " ++ rel_display p ++ "\n```\n" ++ content ++ "\n```") := by
  refine ⟨rfl, ?_, ?_, ?_⟩
  · intro p hp
    exact List.mem_map.mpr ⟨(p, true), List.mem_filter.mpr ⟨hp, rfl⟩, rfl⟩
  · intro p err h
    simp [doc_block, h]
  · intro p content h
    simp [doc_block, h]

/-!  Claim C6. -/

theorem load_entries_eq (pats : ExcludePatterns) (path : String) :
    ∀ (es : FSEntries), load_entries pats path es =
      es.toList.map (fun e => (e.1, e.2, load_directory pats (join_path path e.1) e.2))
  | .nil => rfl
  | .cons n node rest => by
      simp [load_entries, FSEntries.toList, load_entries_eq pats path rest]

theorem entries_fail_eq (pats : ExcludePatterns) :
    ∀ (es : FSEntries), entries_fail pats es =
      es.toList.any (fun e =>
        e.2.isDirN && !(should_exclude pats (stat_of e.1 e.2)) && scan_fails pats e.2)
  | .nil => rfl
  | .cons n node rest => by
      simp [entries_fail, FSEntries.toList, entries_fail_eq pats rest]

theorem fsnode_mem_size :
    ∀ (es : FSEntries) (n : String) (node : FSNode),
      (n, node) ∈ es.toList → sizeOf node < sizeOf es
  | .nil => by
      intro n node h
      simp [FSEntries.toList] at h
  | .cons m mnode rest => by
      intro n node h
      rcases List.mem_cons.mp h with h | h
      · have : node = mnode := congrArg Prod.snd h
        subst this
        simp
        omega
      · have := fsnode_mem_size rest n node h
        simp
        omega

theorem load_folders_seq_snd (l : List (String × FSNode × (List Ctrl × Bool))) :
    (load_folders_seq l).2 = l.all (fun r => r.2.2.2) := by
  induction l with
  | nil => rfl
  | cons r rest ih =>
      rcases r with ⟨n, node, sub, ok⟩
      cases ok with
      | false => simp [load_folders_seq]
      | true => simp [load_folders_seq, ih]

theorem pySort_all (le : α → α → Bool) (p : α → Bool) (l : List α) :
    (pySort le l).all p = l.all p := by
  have hperm : (pySort le l).Perm l := List.perm_insertionSort _ l
  cases h : l.all p with
  | true =>
      rw [List.all_eq_true] at h ⊢
      intro x hx
      exact h x (hperm.mem_iff.mp hx)
  | false =>
      rw [List.all_eq_false] at h ⊢
      obtain ⟨x, hx, hpx⟩ := h
      exact ⟨x, hperm.mem_iff.mpr hx, hpx⟩

theorem assemble_directory_snd (pats : ExcludePatterns) (path : String)
    (results : List (String × FSNode × (List Ctrl × Bool))) :
    (assemble_directory pats path results).2 =
      ((results.filter (fun r => !(should_exclude pats (stat_of r.1 r.2.1)))).filter
        (fun r => r.2.1.isDirN)).all (fun r => r.2.2.2) := by
  have key : (assemble_directory pats path results).2 =
      (load_folders_seq (pySort (fun a b => strLe a.1 b.1)
        ((results.filter (fun r => !(should_exclude pats (stat_of r.1 r.2.1)))).filter
          (fun r => r.2.1.isDirN)))).2 := by
    simp only [assemble_directory]
    split
    · next hc =>
        rw [Bool.not_eq_true'] at hc
        exact hc.symm
    · next hc =>
        simp only [Bool.not_eq_true', Bool.not_eq_false] at hc
        exact hc.symm
  rw [key, load_folders_seq_snd, pySort_all]

/-- C6, amended: a listing failure is not recovered at the failing subtree —
`_load_directory` raises exactly when its own listing fails or the scan of
some visited (non-excluded) subdirectory fails recursively; the exception is
caught only in `_load_files`, which keeps the controls already appended, so
the application call does not raise but the siblings processed after the
failure point are lost. -/
theorem c6_failure_propagates (pats : ExcludePatterns) (fs : FSNode) (path : String) :
    (load_directory pats path fs).2 = !(scan_fails pats fs) ∧
    load_files pats path fs = (load_directory pats path fs).1 := by
  refine ⟨?_, rfl⟩
  have main : ∀ (k : Nat) (fs : FSNode), sizeOf fs ≤ k → ∀ path,
      (load_directory pats path fs).2 = !(scan_fails pats fs) := by
    intro k
    induction k with
    | zero =>
        intro fs hfs
        cases fs <;> simp at hfs
    | succ k ih =>
        intro fs hfs path
        cases fs with
        | file sz => simp [load_directory, scan_fails]
        | dir listing =>
            cases listing with
            | none => simp [load_directory, scan_fails]
            | some es =>
                have hsz : sizeOf es ≤ k := by
                  simp at hfs
                  omega
                have hnode : ∀ n node, (n, node) ∈ es.toList → sizeOf node ≤ k :=
                  fun n node h => Nat.le_of_lt
                    (Nat.lt_of_lt_of_le (fsnode_mem_size es n node h) hsz)
                show (assemble_directory pats path (load_entries pats path es)).2 = _
                rw [assemble_directory_snd, load_entries_eq]
                simp only [scan_fails]
                rw [entries_fail_eq]
                have hIH : ∀ n node, (n, node) ∈ es.toList →
                    (load_directory pats (join_path path n) node).2 =
                      !(scan_fails pats node) :=
                  fun n node h => ih node (hnode n node h) (join_path path n)
                clear hnode hsz hfs
                revert hIH
                generalize es.toList = L
                induction L with
                | nil => intro _; rfl
                | cons e l ihl =>
                    intro hIH
                    rcases e with ⟨n, node⟩
                    have hhead := hIH n node (by simp)
                    have htail := ihl (fun m mn h => hIH m mn (by simp [h]))
                    simp only [List.map_cons, List.filter_cons, List.any_cons]
                    cases hexc : should_exclude pats (stat_of n node) with
                    | true => simpa [hexc] using htail
                    | false =>
                        cases hdir : node.isDirN with
                        | true =>
                            simp [hexc, hdir, hhead, Bool.and_assoc] at htail ⊢
                            rw [htail]
                        | false => simpa [hexc, hdir] using htail
  exact main (sizeOf fs) fs (Nat.le_refl _) path

/-- C6, counterexample: with the unlistable subdirectory `bad` next to the
healthy subdirectory `good`, the scan of the parent yields nothing and
fails — the sibling `good`, which alone scans to a folder item, is not
scanned at all; in `lateFailFS` the failing entry sorts after `agood`, whose
item is kept while the load still fails.  This contradicts the claim that
the failure is caught at the failing subtree, siblings continue unaffected
and the scan as a whole never fails. -/
theorem c6_counterexample :
    scan_fails noPats badFS = true ∧
    load_directory noPats "/r" goodFS =
      ([.folder "good" (some false) [.file "/r/good/g.txt" "g.txt" false]], true) ∧
    load_directory noPats "/r" badFS = ([], false) ∧
    load_directory noPats "/r" lateFailFS =
      ([.folder "agood" (some false) [.file "/r/agood/g.txt" "g.txt" false]], false) :=
  ⟨rfl, rfl, rfl, rfl⟩

/-!  Claim C2. -/

theorem visible_vals_empty (c : Ctrl) :
    visible_vals "" c = (get_all_files c).map (fun e => e.2) := by
  simp [visible_vals, apply_filter_empty c]

theorem get_all_files_list_map_congr (f : Ctrl → Ctrl) (l : List Ctrl)
    (h : ∀ c ∈ l, get_all_files (f c) = get_all_files c) :
    get_all_files_list (l.map f) = get_all_files_list l := by
  induction l with
  | nil => rfl
  | cons c cs ih =>
      simp only [List.map_cons, get_all_files_list]
      rw [h c (by simp), ih (fun x hx => h x (by simp [hx]))]

theorem recalc_files : ∀ c, get_all_files (recalc_folder "" c) = get_all_files c := by
  refine ctrl_induction _ ?_ ?_
  · intro p n v
    rfl
  · intro t st ch ih
    simp only [recalc_folder, subOf_empty, recalc_folder_list_true, get_all_files]
    exact get_all_files_list_map_congr _ _ ih

theorem recalc_folder_empty_eq (t : String) (st : Option Bool) (ch : List Ctrl) :
    recalc_folder "" (.folder t st ch) =
      .folder t (folder_state_of ((get_all_files_list ch).map (fun e => e.2)))
        (ch.map (recalc_folder "")) := by
  simp only [recalc_folder, subOf_empty, recalc_folder_list_true]
  rw [visible_vals_empty]
  simp only [get_all_files]
  rw [get_all_files_list_map_congr _ _ (fun c _ => recalc_files c)]

theorem recalc_consistent : ∀ c, consistent (recalc_folder "" c) = true := by
  refine ctrl_induction _ ?_ ?_
  · intro p n v
    rfl
  · intro t st ch ih
    rw [recalc_folder_empty_eq]
    simp only [consistent, Bool.and_eq_true]
    constructor
    · rw [get_all_files_list_map_congr _ _ (fun c _ => recalc_files c)]
      simp
    · rw [consistent_list_eq, List.all_eq_true]
      intro x hx
      obtain ⟨c, hc, rfl⟩ := List.mem_map.mp hx
      exact ih c hc

theorem recalc_parent_folders_empty (forest : List Ctrl) :
    recalc_parent_folders "" forest = forest.map (recalc_folder "") := by
  simp only [recalc_parent_folders]
  refine List.map_congr_left (fun c _ => ?_)
  simp [top_visible, apply_filter_empty c]

theorem recalc_pf_consistent (forest : List Ctrl) :
    consistent_list (recalc_parent_folders "" forest) = true := by
  rw [recalc_parent_folders_empty, consistent_list_eq, List.all_eq_true]
  intro x hx
  obtain ⟨c, _, rfl⟩ := List.mem_map.mp hx
  exact recalc_consistent c

theorem all_filter_of_all (p q : α → Bool) (l : List α) (h : l.all q = true) :
    (l.filter p).all q = true := by
  rw [List.all_eq_true] at h ⊢
  intro x hx
  exact h x (List.mem_filter.mp hx).1

theorem sort_controls_consistent (info : List (String × FileMeta)) (k : SortKey)
    (desc : Bool) (forest : List Ctrl) (h : consistent_list forest = true) :
    consistent_list (sort_controls info k desc forest) = true := by
  rw [consistent_list_eq] at h ⊢
  simp only [sort_controls, List.all_append, pySort_all, Bool.and_eq_true]
  exact ⟨all_filter_of_all _ _ _ h, all_filter_of_all _ _ _ h⟩

theorem triOf_folder_state (vals : List Bool) :
    triOf (folder_state_of vals) = spec_tri_state vals := by
  simp only [folder_state_of, spec_tri_state]
  by_cases h1 : vals.isEmpty <;> by_cases h2 : vals.all (fun v => v) <;>
    by_cases h3 : vals.all (fun v => !v) <;> simp [h1, h2, h3, triOf]

theorem node_at_consistent : ∀ (pos : List Nat) (forest : List Ctrl) (c : Ctrl),
    consistent_list forest = true → node_at pos forest = some c → consistent c = true
  | [], _, _ => by
      intro _ h
      simp [node_at] at h
  | [i], forest, c => by
      intro hall h
      simp only [node_at] at h
      rw [consistent_list_eq, List.all_eq_true] at hall
      exact hall c (List.get?_mem h)
  | i :: j :: rest, forest, c => by
      intro hall h
      simp only [node_at] at h
      cases hg : forest.get? i with
      | none => rw [hg] at h; simp at h
      | some c0 =>
          rw [hg] at h
          cases c0 with
          | file p n v => simp at h
          | folder t st ch =>
              rw [consistent_list_eq, List.all_eq_true] at hall
              have hc0 := hall _ (List.get?_mem hg)
              simp only [consistent, Bool.and_eq_true] at hc0
              exact node_at_consistent (j :: rest) ch c hc0.2 h

theorem consistent_node_at_spec (forest : List Ctrl)
    (h : consistent_list forest = true) :
    ∀ pos t st ch, node_at pos forest = some (.folder t st ch) →
      triOf st = spec_tri_state ((get_all_files_list ch).map (fun e => e.2)) := by
  intro pos t st ch hn
  have hc := node_at_consistent pos forest _ h hn
  simp only [consistent, Bool.and_eq_true, beq_iff_eq] at hc
  rw [hc.1]
  exact triOf_folder_state _

theorem set_folder_step_consistent (pos : List Nat) (b : Bool) (a : App)
    (hq : a.query = "") (hc : consistent_list a.forest = true) :
    (set_folder_step pos b a).query = "" ∧
    consistent_list (set_folder_step pos b a).forest = true := by
  simp only [set_folder_step]
  cases hn : node_at pos a.forest with
  | none => exact ⟨hq, hc⟩
  | some c0 =>
      cases c0 with
      | file p n v => exact ⟨hq, hc⟩
      | folder t st ch =>
          refine ⟨hq, ?_⟩
          show consistent_list (recalc_parent_folders a.query _) = true
          rw [hq]
          exact recalc_pf_consistent _

theorem step_no_filter_consistent (op : Op) (a : App) (hq : a.query = "")
    (hop : no_filter_call op = true) (hc : consistent_list a.forest = true) :
    (step op a).query = "" ∧ consistent_list (step op a).forest = true := by
  obtain ⟨forest, query, info⟩ := a
  simp only at hq hc
  subst hq
  cases op with
  | setFile p b => exact ⟨rfl, recalc_pf_consistent _⟩
  | folderClick pos =>
      simp only [step]
      cases hn : node_at pos forest with
      | none => exact ⟨rfl, hc⟩
      | some c0 =>
          cases c0 with
          | file p n v => exact ⟨rfl, hc⟩
          | folder t st ch => exact set_folder_step_consistent pos _ ⟨forest, "", info⟩ rfl hc
  | setFolder pos b => exact set_folder_step_consistent pos b ⟨forest, "", info⟩ rfl hc
  | applyFilterOp q => simp [no_filter_call] at hop
  | clearFilter => exact ⟨rfl, hc⟩
  | sortFiles k desc =>
      simp only [step]
      split
      · exact ⟨rfl, hc⟩
      · exact ⟨rfl, sort_controls_consistent _ _ _ _ hc⟩
  | selectAll => simp [no_filter_call] at hop
  | deselectAll => simp [no_filter_call] at hop

/-- C2, amended: along any sequence of the public calls of the claim that
never applies a filter (file clicks, folder clicks and sets, clearing the
filter, sorting), starting from a tri-state consistent unfiltered state,
every folder observable at any position caches exactly the tri-state
prescribed by the spec as a pure function of all of its descendant file
selection flags — no stale value is observable.  (With a filter active the
recalculation walks only the visible controls, so the invariant holds for
the visible file set, not for all descendants; see the counterexample.) -/
theorem c2_tri_state_no_filter (ops : List Op) (a : App)
    (hq : a.query = "") (hops : ops.all no_filter_call = true)
    (hc : consistent_list a.forest = true) :
    consistent_list (run_ops ops a).forest = true ∧
    ∀ pos t st ch, node_at pos (run_ops ops a).forest = some (.folder t st ch) →
      triOf st = spec_tri_state ((get_all_files_list ch).map (fun e => e.2)) := by
  have main : ∀ (l : List Op) (b : App), b.query = "" → l.all no_filter_call = true →
      consistent_list b.forest = true → consistent_list (run_ops l b).forest = true := by
    intro l
    induction l with
    | nil => intro b _ _ hcb; exact hcb
    | cons op rest ih =>
        intro b hqb hall hcb
        simp only [List.all_cons, Bool.and_eq_true] at hall
        have hs := step_no_filter_consistent op b hqb hall.1 hcb
        exact ih (step op b) hs.1 hall.2 hs.2
  exact ⟨main ops a hq hops hc, consistent_node_at_spec _ (main ops a hq hops hc)⟩

/-- C2, witness: the amended theorem applied to the scanned state of
`xFolder` and the single call `setFile apple.txt true` — the folder is
observed Mixed, matching the pure function of `[true, false]`. -/
theorem c2_witness :
    app0.query = "" ∧
    ([Op.setFile "/r/x/apple.txt" true].all no_filter_call = true) ∧
    consistent_list app0.forest = true ∧
    node_at [0] (run_ops [.setFile "/r/x/apple.txt" true] app0).forest =
      some (.folder "x" none
        [.file "/r/x/apple.txt" "apple.txt" true,
         .file "/r/x/banana.txt" "banana.txt" false]) ∧
    triOf none = spec_tri_state [true, false] := by
  refine ⟨rfl, by decide, by decide, by rfl, ?_⟩
  exact (c2_tri_state_no_filter [.setFile "/r/x/apple.txt" true] app0 rfl (by decide)
    (by decide)).2 [0] "x" none
      [.file "/r/x/apple.txt" "apple.txt" true,
       .file "/r/x/banana.txt" "banana.txt" false] (by rfl)

/-- C2, counterexample: after the public call sequence `applyFilter "apple"`
then `setFile apple.txt true`, the folder `x` caches AllSelected (the
recalculation saw only the visible file `apple.txt`), while the pure
function of all its descendant flags `[true, false]` is Mixed — a stale
value is observable, refuting the claim for sequences that include
`applyFilter`. -/
theorem c2_counterexample :
    consistent_list app0.forest = true ∧
    app2 = run_ops [.applyFilterOp "apple", .setFile "/r/x/apple.txt" true] app0 ∧
    node_at [0] app2.forest =
      some (.folder "x" (some true)
        [.file "/r/x/apple.txt" "apple.txt" true,
         .file "/r/x/banana.txt" "banana.txt" false]) ∧
    triOf (some true) = .allSelected ∧
    spec_tri_state [true, false] = .mixed ∧
    triOf (some true) ≠ spec_tri_state [true, false] :=
  ⟨by decide, rfl, by rfl, rfl, by decide, by decide⟩

/-!  Claim C4. -/

theorem set_files_checked_empty_eq (b : Bool) (t : String) (st : Option Bool)
    (ch : List Ctrl) :
    set_files_checked "" b (.folder t st ch) =
      .folder t (some b) (ch.map (set_files_checked "" b)) := by
  simp [set_files_checked, subOf_empty, set_files_checked_list_true]

theorem get_all_files_list_map_eq (f : Ctrl → Ctrl) (g : String × Bool → String × Bool)
    (l : List Ctrl) (h : ∀ c ∈ l, get_all_files (f c) = (get_all_files c).map g) :
    get_all_files_list (l.map f) = (get_all_files_list l).map g := by
  induction l with
  | nil => rfl
  | cons c cs ih =>
      simp only [List.map_cons, get_all_files_list, List.map_append]
      rw [h c (by simp), ih (fun x hx => h x (by simp [hx]))]

theorem set_files_checked_files (b : Bool) :
    ∀ c, get_all_files (set_files_checked "" b c) =
      (get_all_files c).map (fun e => (e.1, b)) := by
  refine ctrl_induction _ ?_ ?_
  · intro p n v
    rfl
  · intro t st ch ih
    rw [set_files_checked_empty_eq]
    simp only [get_all_files]
    exact get_all_files_list_map_eq _ _ _ ih

theorem node_at_modify : ∀ (pos : List Nat) (forest : List Ctrl) (c : Ctrl)
    (f : Ctrl → Ctrl), node_at pos forest = some c →
    node_at pos (modify_at pos f forest) = some (f c)
  | [], _, _, _ => by
      intro h
      simp [node_at] at h
  | [i], forest, c, f => by
      intro h
      simp only [node_at, modify_at] at h ⊢
      rw [List.get?_eq_getElem?] at h ⊢
      rw [List.getElem?_modify, h]
      simp
  | i :: j :: rest, forest, c, f => by
      intro h
      simp only [node_at, modify_at] at h ⊢
      cases hg : forest.get? i with
      | none => rw [hg] at h; simp at h
      | some c0 =>
          rw [hg] at h
          cases c0 with
          | file p n v => simp at h
          | folder t0 st0 ch0 =>
              rw [List.get?_eq_getElem?] at hg ⊢
              rw [List.getElem?_modify, hg]
              simp only [Option.map_some']
              exact node_at_modify (j :: rest) ch0 c f h

theorem node_at_map_recalc : ∀ (pos : List Nat) (forest : List Ctrl) (t : String)
    (st : Option Bool) (ch : List Ctrl),
    node_at pos forest = some (.folder t st ch) →
    node_at pos (forest.map (recalc_folder "")) =
      some (.folder t (folder_state_of ((get_all_files_list ch).map (fun e => e.2)))
        (ch.map (recalc_folder "")))
  | [], _, _, _, _ => by
      intro h
      simp [node_at] at h
  | [i], forest, t, st, ch => by
      intro h
      simp only [node_at] at h ⊢
      rw [List.get?_eq_getElem?] at h ⊢
      rw [List.getElem?_map, h]
      simp [recalc_folder_empty_eq]
  | i :: j :: rest, forest, t, st, ch => by
      intro h
      simp only [node_at] at h ⊢
      cases hg : forest.get? i with
      | none => rw [hg] at h; simp at h
      | some c0 =>
          rw [hg] at h
          cases c0 with
          | file p n v => simp at h
          | folder t0 st0 ch0 =>
              rw [List.get?_eq_getElem?] at hg ⊢
              rw [List.getElem?_map, hg]
              simp only [Option.map_some']
              rw [recalc_folder_empty_eq]
              exact node_at_map_recalc (j :: rest) ch0 t st ch h

theorem folder_state_of_const (b : Bool) (l : List α) :
    folder_state_of (l.map (fun _ => b)) = if l.isEmpty then some false else some b := by
  cases l with
  | nil => rfl
  | cons x xs =>
      cases b <;> simp [folder_state_of, List.all_eq_true]

/-- C4, amended: with no filter active, `setFolder(d, true)` sets every
descendant file of `d` and leaves `getTriState(d) = AllSelected` provided
`d` has at least one descendant file (every scanned folder does), and
`setFolder(d, false)` unselects every descendant file and leaves
`getTriState(d) = NoneSelected`.  While a filter is active, only the
currently visible descendants are written — a hidden file keeps its old
flag, so the claim as stated fails (see the counterexample). -/
theorem c4_set_folder_no_filter (a : App) (pos : List Nat) (t : String)
    (st0 : Option Bool) (ch : List Ctrl) (b : Bool) (hq : a.query = "")
    (h : node_at pos a.forest = some (.folder t st0 ch)) :
    ∃ st' ch',
      node_at pos (step (.setFolder pos b) a).forest = some (.folder t st' ch') ∧
      get_all_files_list ch' = (get_all_files_list ch).map (fun e => (e.1, b)) ∧
      (b = false → triOf st' = .noneSelected) ∧
      (b = true → get_all_files_list ch ≠ [] → triOf st' = .allSelected) := by
  obtain ⟨forest, query, info⟩ := a
  simp only at hq h
  subst hq
  simp only [step, set_folder_step, h]
  have hA := node_at_modify pos forest _ (set_files_checked "" b) h
  rw [set_files_checked_empty_eq] at hA
  have hB := node_at_map_recalc pos _ t (some b) (ch.map (set_files_checked "" b)) hA
  rw [← recalc_parent_folders_empty] at hB
  refine ⟨_, _, hB, ?_, ?_, ?_⟩
  · rw [get_all_files_list_map_congr _ _ (fun c _ => recalc_files c),
      get_all_files_list_map_eq (set_files_checked "" b) (fun (e : String × Bool) => (e.1, b)) _
        (fun c _ => set_files_checked_files b c)]
  · intro hb
    subst hb
    rw [get_all_files_list_map_eq (set_files_checked "" false) (fun (e : String × Bool) => (e.1, false)) _
      (fun c _ => set_files_checked_files false c)]
    rw [List.map_map]
    have : ((fun (e : String × Bool) => e.2) ∘ fun (e : String × Bool) => (e.1, false)) =
        (fun _ => false) := rfl
    rw [this, folder_state_of_const]
    cases hE : (get_all_files_list ch).isEmpty <;> simp [triOf]
  · intro hb hne
    subst hb
    rw [get_all_files_list_map_eq (set_files_checked "" true) (fun (e : String × Bool) => (e.1, true)) _
      (fun c _ => set_files_checked_files true c)]
    rw [List.map_map]
    have : ((fun (e : String × Bool) => e.2) ∘ fun (e : String × Bool) => (e.1, true)) =
        (fun _ => true) := rfl
    rw [this, folder_state_of_const]
    have hE : (get_all_files_list ch).isEmpty = false := by
      cases hl : get_all_files_list ch with
      | nil => exact absurd hl hne
      | cons x xs => rfl
    simp [hE, triOf]

/-- C4, counterexample: with the filter `apple` active, `setFolder(x, true)`
leaves the hidden descendant `banana.txt` unselected although the claim
requires every descendant including hidden ones to be selected; the cached
tri-state does read AllSelected. -/
theorem c4_counterexample :
    app4 = run_ops [.applyFilterOp "apple", .setFolder [0] true] app0 ∧
    node_at [0] app4.forest =
      some (.folder "x" (some true)
        [.file "/r/x/apple.txt" "apple.txt" true,
         .file "/r/x/banana.txt" "banana.txt" false]) ∧
    triOf (some true) = .allSelected ∧
    ("/r/x/banana.txt", false) ∈ check_values_of app4.forest :=
  ⟨rfl, by rfl, rfl, by decide⟩

/-- C4, witness: the amended theorem applied to the unfiltered scanned state
of `xFolder`, once with `true` and once with `false`. -/
theorem c4_witness :
    app0.query = "" ∧
    node_at [0] app0.forest =
      some (.folder "x" (some false)
        [.file "/r/x/apple.txt" "apple.txt" false,
         .file "/r/x/banana.txt" "banana.txt" false]) ∧
    (∃ st' ch', node_at [0] (step (.setFolder [0] true) app0).forest =
        some (.folder "x" st' ch') ∧
      get_all_files_list ch' = [("/r/x/apple.txt", true), ("/r/x/banana.txt", true)] ∧
      triOf st' = .allSelected) ∧
    (∃ st' ch', node_at [0] (step (.setFolder [0] false) app0).forest =
        some (.folder "x" st' ch') ∧
      get_all_files_list ch' = [("/r/x/apple.txt", false), ("/r/x/banana.txt", false)] ∧
      triOf st' = .noneSelected) := by
  obtain ⟨st1, ch1, h1, h2, _, h4⟩ := c4_set_folder_no_filter app0 [0] "x" (some false)
    [.file "/r/x/apple.txt" "apple.txt" false,
     .file "/r/x/banana.txt" "banana.txt" false] true rfl (by rfl)
  obtain ⟨st2, ch2, g1, g2, g3, _⟩ := c4_set_folder_no_filter app0 [0] "x" (some false)
    [.file "/r/x/apple.txt" "apple.txt" false,
     .file "/r/x/banana.txt" "banana.txt" false] false rfl (by rfl)
  exact ⟨rfl, by rfl,
    ⟨st1, ch1, h1, h2.trans (by rfl), h4 rfl (by decide)⟩,
    ⟨st2, ch2, g1, g2.trans (by rfl), g3 rfl⟩⟩

/-- C9, witness: Scenario E — `missing.txt` is gone at generation time; the
output still contains a heading with an inline error for it and the block of
the other selected file. -/
theorem c9_witness :
    scenERead ["missing.txt"] = .error "No such file or directory" ∧
    doc_block scenERead ["missing.txt"] =
      "## missing.txt\n```\nエラー: No such file or directory\n```" ∧
    doc_block scenERead ["other.txt"] = "## other.txt\n```\nhello\n```" ∧
    doc_block scenERead ["missing.txt"] ∈
      (scenECv.filter (fun e => e.2)).map (fun e => doc_block scenERead e.1) ∧
    doc_block scenERead ["other.txt"] ∈
      (scenECv.filter (fun e => e.2)).map (fun e => doc_block scenERead e.1) := by
  have h := c9_generation_degrades_per_file "root" scenECv scenERead
  refine ⟨rfl, h.2.2.1 ["missing.txt"] "No such file or directory" rfl,
    h.2.2.2 ["other.txt"] "hello" rfl,
    h.2.1 ["missing.txt"] (by decide), h.2.1 ["other.txt"] (by decide)⟩

/-!  Claim C10. -/

theorem filtered_kept_files (q : String) (ch : List Ctrl) :
    (get_all_files_list
        (((apply_filter_list q ch).filter (fun e => e.2)).map (fun e => e.1))).map
      (fun e => e.1) =
    ch.flatMap (fun c =>
      if (apply_filter q c).2 then visible_file_paths q c else []) := by
  induction ch with
  | nil => rfl
  | cons c cs ih =>
      simp only [apply_filter_list, List.filter_cons, List.flatMap_cons]
      cases hf : (apply_filter q c).2 with
      | true =>
          simp only [hf, if_pos, List.map_cons, get_all_files_list, List.map_append, ih]
          rfl
      | false => simp [hf, ih]

theorem filtered_all_files (q : String) (ch : List Ctrl) :
    (get_all_files_list ((apply_filter_list q ch).map (fun e => e.1))).map
      (fun e => e.1) =
    ch.flatMap (fun c => visible_file_paths q c) := by
  induction ch with
  | nil => rfl
  | cons c cs ih =>
      simp only [apply_filter_list, List.map_cons, get_all_files_list, List.map_append,
        List.flatMap_cons, ih]
      rfl

theorem visible_file_paths_folder (q t : String) (st : Option Bool) (ch : List Ctrl) :
    visible_file_paths q (.folder t st ch) =
      vis_paths_list q (subOf q (lowerStr t)) ch := by
  simp only [visible_file_paths, apply_filter, vis_paths_list]
  cases hm : subOf q (lowerStr t) with
  | true =>
      simp only [hm, if_true, get_all_files]
      rw [filtered_all_files]
      refine (List.flatMap_congr ?_)
      intro c _
      simp [child_visible, visible_file_paths]
  | false =>
      simp only [hm, Bool.false_eq_true, if_false, get_all_files]
      rw [filtered_kept_files]
      refine (List.flatMap_congr ?_)
      intro c _
      simp [child_visible, visible_file_paths]

theorem visible_sub (q : String) :
    ∀ c, ∀ p ∈ visible_file_paths q c, p ∈ (get_all_files c).map (fun e => e.1) := by
  refine ctrl_induction _ ?_ ?_
  · intro p n v x hx
    simpa [visible_file_paths, apply_filter, get_all_files] using hx
  · intro t st ch ih x hx
    rw [visible_file_paths_folder] at hx
    simp only [vis_paths_list, List.mem_flatMap] at hx
    obtain ⟨c, hc, hx⟩ := hx
    have hxc : x ∈ visible_file_paths q c := by
      by_cases hv : child_visible q (subOf q (lowerStr t)) c = true
      · simpa [hv] using hx
      · simp [Bool.not_eq_true] at hv
        simp [hv] at hx
    have := ih c hc x hxc
    simp only [get_all_files, get_all_files_list_eq, List.mem_map, List.mem_flatMap] at this ⊢
    obtain ⟨e, he, rfl⟩ := this
    exact ⟨e, ⟨c, hc, he⟩, rfl⟩

theorem vis_paths_list_sub (q : String) (pm : Bool) (ch : List Ctrl) :
    ∀ p ∈ vis_paths_list q pm ch, p ∈ (get_all_files_list ch).map (fun e => e.1) := by
  intro p hp
  simp only [vis_paths_list, List.mem_flatMap] at hp
  obtain ⟨c, hc, hp⟩ := hp
  have hpc : p ∈ visible_file_paths q c := by
    by_cases hv : child_visible q pm c = true
    · simpa [hv] using hp
    · simp [Bool.not_eq_true] at hv
      simp [hv] at hp
  have := visible_sub q c p hpc
  simp only [get_all_files_list_eq, List.mem_map, List.mem_flatMap] at this ⊢
  obtain ⟨e, he, rfl⟩ := this
  exact ⟨e, ⟨c, hc, he⟩, rfl⟩

theorem set_files_checked_list_visible (q : String) (b : Bool) (pm : Bool) :
    ∀ (ch : List Ctrl),
      (∀ c ∈ ch, ((get_all_files c).map (fun e => e.1)).Nodup →
        get_all_files (set_files_checked q b c) =
          (get_all_files c).map (fun e =>
            if e.1 ∈ visible_file_paths q c then (e.1, b) else e)) →
      ((get_all_files_list ch).map (fun e => e.1)).Nodup →
      get_all_files_list (set_files_checked_list q b pm ch) =
        (get_all_files_list ch).map (fun e =>
          if e.1 ∈ vis_paths_list q pm ch then (e.1, b) else e) := by
  intro ch
  induction ch with
  | nil => intro _ _; rfl
  | cons c cs ih =>
      intro hS hnd
      simp only [get_all_files_list, List.map_append] at hnd ⊢
      rw [List.nodup_append] at hnd
      obtain ⟨hnd1, hnd2, hdisj⟩ := hnd
      have hsubv : ∀ x ∈ visible_file_paths q c, x ∈ (get_all_files c).map (fun e => e.1) :=
        visible_sub q c
      have hsubl : ∀ x ∈ vis_paths_list q pm cs,
          x ∈ (get_all_files_list cs).map (fun e => e.1) :=
        vis_paths_list_sub q pm cs
      have hcondc : ∀ e ∈ get_all_files c,
          (e.1 ∈ vis_paths_list q pm (c :: cs)) =
            (e.1 ∈ (if child_visible q pm c then visible_file_paths q c else [])) := by
        intro e he
        simp only [vis_paths_list, List.flatMap_cons, List.mem_append, eq_iff_iff]
        constructor
        · rintro (h | h)
          · exact h
          · have h2 : e.1 ∈ vis_paths_list q pm cs := by
              simpa [vis_paths_list] using h
            exact absurd (hsubl _ h2)
              (hdisj (List.mem_map.mpr ⟨e, he, rfl⟩))
        · exact Or.inl
      have hcondcs : ∀ e ∈ get_all_files_list cs,
          (e.1 ∈ vis_paths_list q pm (c :: cs)) = (e.1 ∈ vis_paths_list q pm cs) := by
        intro e he
        simp only [vis_paths_list, List.flatMap_cons, List.mem_append, eq_iff_iff]
        constructor
        · rintro (h | h)
          · have h1 : e.1 ∈ visible_file_paths q c := by
              by_cases hv : child_visible q pm c = true
              · simpa [hv] using h
              · simp [Bool.not_eq_true] at hv
                simp [hv] at h
            exact absurd (List.mem_map.mpr ⟨e, he, rfl⟩)
              (fun hmem => hdisj (hsubv _ h1) hmem)
          · simpa [vis_paths_list] using h
        · intro h
          exact Or.inr (by simpa [vis_paths_list] using h)
      have hc1 : (get_all_files c).map (fun e =>
            if e.1 ∈ vis_paths_list q pm (c :: cs) then (e.1, b) else e) =
          (get_all_files c).map (fun e =>
            if e.1 ∈ (if child_visible q pm c then visible_file_paths q c else [])
            then (e.1, b) else e) := by
        refine List.map_congr_left (fun e he => ?_)
        exact if_congr (iff_of_eq (hcondc e he)) rfl rfl
      have hc2 : (get_all_files_list cs).map (fun e =>
            if e.1 ∈ vis_paths_list q pm (c :: cs) then (e.1, b) else e) =
          (get_all_files_list cs).map (fun e =>
            if e.1 ∈ vis_paths_list q pm cs then (e.1, b) else e) := by
        refine List.map_congr_left (fun e he => ?_)
        exact if_congr (iff_of_eq (hcondcs e he)) rfl rfl
      rw [hc1, hc2]
      have head : get_all_files (if child_visible q pm c then set_files_checked q b c else c) =
          (get_all_files c).map (fun e =>
            if e.1 ∈ (if child_visible q pm c then visible_file_paths q c else [])
            then (e.1, b) else e) := by
        cases hv : child_visible q pm c with
        | true =>
            simp only [hv, if_true]
            exact hS c (by simp) hnd1
        | false =>
            simp only [hv, Bool.false_eq_true, if_false]
            have hid : ∀ e ∈ get_all_files c,
                (if e.1 ∈ ([] : List String) then (e.1, b) else e) = e := by
              intro e _
              simp
            rw [List.map_congr_left hid, List.map_id']
      have tail : get_all_files_list (set_files_checked_list q b pm cs) =
          (get_all_files_list cs).map (fun e =>
            if e.1 ∈ vis_paths_list q pm cs then (e.1, b) else e) :=
        ih (fun x hx => hS x (by simp [hx])) hnd2
      rw [head, tail]

theorem set_files_checked_visible (q : String) (b : Bool) :
    ∀ c, ((get_all_files c).map (fun e => e.1)).Nodup →
      get_all_files (set_files_checked q b c) =
        (get_all_files c).map (fun e =>
          if e.1 ∈ visible_file_paths q c then (e.1, b) else e) := by
  refine ctrl_induction _ ?_ ?_
  · intro p n v _
    simp [set_files_checked, get_all_files, visible_file_paths, apply_filter]
  · intro t st ch ih hnd
    show get_all_files_list (set_files_checked_list q b (subOf q (lowerStr t)) ch) = _
    rw [visible_file_paths_folder]
    exact set_files_checked_list_visible q b _ ch (fun c hc => ih c hc) hnd

theorem set_files_checked_list_false (q : String) (b : Bool) (l : List Ctrl) :
    set_files_checked_list q b false l =
      l.map (fun c => if top_visible q c then set_files_checked q b c else c) := by
  induction l with
  | nil => rfl
  | cons c cs ih =>
      simp [set_files_checked_list, child_visible, top_visible, ih]

theorem visible_file_paths_empty (c : Ctrl) :
    visible_file_paths "" c = (get_all_files c).map (fun e => e.1) := by
  simp [visible_file_paths, apply_filter_empty]

theorem vis_paths_list_false_empty (forest : List Ctrl) :
    vis_paths_list "" false forest = (get_all_files_list forest).map (fun e => e.1) := by
  induction forest with
  | nil => rfl
  | cons c cs ih =>
      simp only [vis_paths_list, List.flatMap_cons, get_all_files_list, List.map_append]
      have hv : child_visible "" false c = true := by
        simp [child_visible, apply_filter_empty]
      rw [hv]
      simp only [if_true]
      rw [visible_file_paths_empty c]
      have ih2 : (cs.flatMap fun x =>
          if child_visible "" false x = true then visible_file_paths "" x else []) =
          List.map (fun e => e.1) (get_all_files_list cs) := by
        simpa [vis_paths_list] using ih
      rw [ih2]

theorem visible_paths_eq (q : String) (forest : List Ctrl) :
    visible_paths q forest = vis_paths_list q false forest := by
  by_cases hq : q = ""
  · subst hq
    have hff : filter_files "" forest = forest := by
      simp [filter_files]
    simp only [visible_paths, check_values_of, hff]
    rw [vis_paths_list_false_empty]
  · simp only [visible_paths, filter_files, if_neg hq, check_values_of]
    rw [filtered_kept_files]
    refine (List.flatMap_congr ?_)
    intro c _
    simp [child_visible]

/-- C10: the select-all and deselect-all toolbar operations walk only the
currently displayed controls — every visible file flag is set to the button
value and every file hidden by the active filter keeps its previous flag in
the selection mapping (paths are unique in a scanned tree, which the
hypothesis records). -/
theorem c10_select_all_respects_filter (b : Bool) (a : App)
    (hnd : ((check_values_of a.forest).map (fun e => e.1)).Nodup) :
    check_values_of (select_all_step b a).forest =
      (check_values_of a.forest).map (fun e =>
        if e.1 ∈ visible_paths a.query a.forest then (e.1, b) else e) ∧
    ∀ p v, (p, v) ∈ check_values_of a.forest → p ∉ visible_paths a.query a.forest →
      (p, v) ∈ check_values_of (select_all_step b a).forest := by
  have h1 : check_values_of (select_all_step b a).forest =
      (check_values_of a.forest).map (fun e =>
        if e.1 ∈ visible_paths a.query a.forest then (e.1, b) else e) := by
    show get_all_files_list ((select_all_step b a).forest) = _
    have hf : (select_all_step b a).forest =
        set_files_checked_list a.query b false a.forest := by
      simp only [select_all_step]
      rw [set_files_checked_list_false]
    rw [hf, visible_paths_eq]
    exact set_files_checked_list_visible a.query b false a.forest
      (fun c _ => set_files_checked_visible a.query b c) hnd
  refine ⟨h1, ?_⟩
  intro p v hmem hnot
  rw [h1]
  refine List.mem_map.mpr ⟨(p, v), hmem, ?_⟩
  simp [hnot]

/-- C10, witness: with the filter `apple` active on the scanned state of
`xFolder` (selection `apple.txt` off, `banana.txt` off after a manual set),
select-all sets only `apple.txt`; the hidden `banana.txt` keeps its flag. -/
theorem c10_witness :
    ((check_values_of (App.mk [xFolder] "apple" []).forest).map (fun e => e.1)).Nodup ∧
    "/r/x/banana.txt" ∉ visible_paths "apple" [xFolder] ∧
    ("/r/x/banana.txt", false) ∈
      check_values_of (select_all_step true (App.mk [xFolder] "apple" [])).forest ∧
    check_values_of (select_all_step true (App.mk [xFolder] "apple" [])).forest =
      [("/r/x/apple.txt", true), ("/r/x/banana.txt", false)] := by
  refine ⟨by decide, by decide, ?_, by rfl⟩
  exact (c10_select_all_respects_filter true (App.mk [xFolder] "apple" []) (by decide)).2
    "/r/x/banana.txt" false (by decide) (by decide)

/-!  Claim C8: membership structure of the prefix tree. -/

theorem mem_ptree_paths_entries (r : List String) :
    ∀ (es : List (String × PTree)),
      r ∈ ptree_paths_entries es ↔
        ∃ n t, (n, t) ∈ es ∧ (r = [n] ∨ ∃ r', r = n :: r' ∧ r' ∈ ptree_paths t)
  | [] => by simp [ptree_paths_entries]
  | (n0, t0) :: rest => by
      simp only [ptree_paths_entries, List.mem_cons, List.mem_append, List.mem_map]
      rw [mem_ptree_paths_entries r rest]
      constructor
      · rintro (rfl | ⟨r', hr', rfl⟩ | ⟨nn, tt, hm, hh⟩)
        · exact ⟨n0, t0, Or.inl rfl, Or.inl rfl⟩
        · exact ⟨n0, t0, Or.inl rfl, Or.inr ⟨r', rfl, hr'⟩⟩
        · exact ⟨nn, tt, Or.inr hm, hh⟩
      · rintro ⟨nn, tt, hm | hm, hh⟩
        · cases hm
          rcases hh with rfl | ⟨r', rfl, hr'⟩
          · exact Or.inl rfl
          · exact Or.inr (Or.inl ⟨r', hr', rfl⟩)
        · exact Or.inr (Or.inr ⟨nn, tt, hm, hh⟩)

theorem mem_leaf_paths_entries (r : List String) :
    ∀ (es : List (String × PTree)),
      r ∈ leaf_paths_entries es ↔
        ∃ n t, (n, t) ∈ es ∧
          ((t = .leaf ∧ r = [n]) ∨ ∃ r', r = n :: r' ∧ r' ∈ leaf_paths t)
  | [] => by simp [leaf_paths_entries]
  | (n0, t0) :: rest => by
      simp only [leaf_paths_entries, List.mem_append, List.mem_cons]
      rw [mem_leaf_paths_entries r rest]
      constructor
      · rintro (hh | ⟨nn, tt, hm, hh⟩)
        · cases t0 with
          | leaf =>
              simp only [List.mem_singleton] at hh
              exact ⟨n0, .leaf, Or.inl rfl, Or.inl ⟨rfl, hh⟩⟩
          | node es0 =>
              simp only [List.mem_map] at hh
              obtain ⟨r', hr', rfl⟩ := hh
              exact ⟨n0, .node es0, Or.inl rfl, Or.inr ⟨r', rfl, hr'⟩⟩
        · exact ⟨nn, tt, Or.inr hm, hh⟩
      · rintro ⟨nn, tt, hm | hm, hh⟩
        · cases hm
          rcases hh with ⟨rfl, rfl⟩ | ⟨r', rfl, hr'⟩
          · exact Or.inl (by simp)
          · refine Or.inl ?_
            cases t0 with
            | leaf => simp [leaf_paths] at hr'
            | node es0 => exact List.mem_map.mpr ⟨r', hr', rfl⟩
        · exact Or.inr ⟨nn, tt, hm, hh⟩

theorem mem_ptree_paths_entries_ne_nil {r : List String} {es : List (String × PTree)}
    (h : r ∈ ptree_paths_entries es) : r ≠ [] := by
  rw [mem_ptree_paths_entries] at h
  obtain ⟨n, t, _, rfl | ⟨r', rfl, _⟩⟩ := h <;> simp

theorem mem_leaf_paths_entries_ne_nil {r : List String} {es : List (String × PTree)}
    (h : r ∈ leaf_paths_entries es) : r ≠ [] := by
  rw [mem_leaf_paths_entries] at h
  obtain ⟨n, t, _, ⟨_, rfl⟩ | ⟨r', rfl, _⟩⟩ := h <;> simp

theorem leaf_paths_sub_ptree_paths :
    ∀ (es : List (String × PTree)) (r : List String),
      r ∈ leaf_paths_entries es → r ∈ ptree_paths_entries es
  | es, r => by
      intro h
      rw [mem_leaf_paths_entries] at h
      rw [mem_ptree_paths_entries]
      obtain ⟨n, t, hm, ⟨_, rfl⟩ | ⟨r', rfl, hr'⟩⟩ := h
      · exact ⟨n, t, hm, Or.inl rfl⟩
      · refine ⟨n, t, hm, Or.inr ⟨r', rfl, ?_⟩⟩
        cases t with
        | leaf => simp [leaf_paths] at hr'
        | node es2 =>
            have hlt := List.sizeOf_lt_of_mem hm
            have h2 : sizeOf es2 < sizeOf (n, PTree.node es2) := by
              simp only [Prod.mk.sizeOf_spec, PTree.node.sizeOf_spec]
              omega
            have : sizeOf es2 < sizeOf es := Nat.lt_trans h2 hlt
            exact leaf_paths_sub_ptree_paths es2 r' hr'
termination_by es r => sizeOf es

theorem assoc_lookup_mem (s : String) (t : PTree) :
    ∀ (es : List (String × PTree)), assoc_lookup s es = some t → (s, t) ∈ es
  | [] => by simp [assoc_lookup]
  | (k, w) :: rest => by
      intro h
      simp only [assoc_lookup] at h
      split at h
      · next hk =>
          cases h
          subst hk
          exact List.mem_cons_self _ _
      · exact List.mem_cons_of_mem _ (assoc_lookup_mem s t rest h)

theorem assoc_lookup_none (s : String) :
    ∀ (es : List (String × PTree)), assoc_lookup s es = none →
      ∀ t, (s, t) ∉ es
  | [] => by simp
  | (k, w) :: rest => by
      intro h t hmem
      simp only [assoc_lookup] at h
      split at h
      · cases h
      · next hk =>
          rcases List.mem_cons.mp hmem with heq | hmem
          · cases heq
            exact hk rfl
          · exact assoc_lookup_none s rest h t hmem

theorem assoc_set_keys (s : String) (v : PTree) :
    ∀ (es : List (String × PTree)) (e : String × PTree),
      e ∈ assoc_set s v es → e.1 = s ∨ ∃ w, (e.1, w) ∈ es
  | [], e => by
      intro h
      simp only [assoc_set, List.mem_singleton] at h
      subst h
      exact Or.inl rfl
  | (k, w) :: rest, e => by
      obtain ⟨n, t⟩ := e
      intro h
      simp only [assoc_set] at h
      split at h
      · rcases List.mem_cons.mp h with heq | hm
        · cases heq
          exact Or.inl rfl
        · exact Or.inr ⟨t, List.mem_cons_of_mem _ hm⟩
      · rcases List.mem_cons.mp h with heq | hm
        · cases heq
          exact Or.inr ⟨w, List.mem_cons_self _ _⟩
        · rcases assoc_set_keys s v rest (n, t) hm with h1 | ⟨w', hw'⟩
          · exact Or.inl h1
          · exact Or.inr ⟨w', List.mem_cons_of_mem _ hw'⟩

theorem wf_entries_mem {es : List (String × PTree)} (hwf : wf_entries es) :
    ∀ {n : String} {t : PTree}, (n, t) ∈ es → wf_tree t := by
  induction es with
  | nil => intro n t h; simp at h
  | cons e rest ih =>
      rcases e with ⟨k, w⟩
      simp only [wf_entries] at hwf
      intro n t h
      rcases List.mem_cons.mp h with heq | hm
      · cases heq
        exact hwf.1
      · exact ih hwf.2.1 hm

theorem wf_entries_key_unique {es : List (String × PTree)} (hwf : wf_entries es) :
    ∀ {n : String} {t t' : PTree}, (n, t) ∈ es → (n, t') ∈ es → t = t' := by
  induction es with
  | nil => intro n t t' h; simp at h
  | cons e rest ih =>
      rcases e with ⟨k, w⟩
      simp only [wf_entries] at hwf
      intro n t t' h h'
      rcases List.mem_cons.mp h with heq | hm <;> rcases List.mem_cons.mp h' with heq' | hm'
      · cases heq; cases heq'; rfl
      · cases heq
        exact absurd rfl (hwf.2.2 _ hm')
      · cases heq'
        exact absurd rfl (hwf.2.2 _ hm)
      · exact ih hwf.2.1 hm hm'

theorem wf_assoc_set (s : String) (v : PTree) (hv : wf_tree v) :
    ∀ (es : List (String × PTree)), wf_entries es → wf_entries (assoc_set s v es)
  | [] => by
      intro _
      simp only [assoc_set, wf_entries]
      exact ⟨hv, trivial, by simp⟩
  | (k, w) :: rest => by
      intro hwf
      simp only [wf_entries] at hwf
      simp only [assoc_set]
      split
      · next hk =>
          subst hk
          exact ⟨hv, hwf.2.1, hwf.2.2⟩
      · next hk =>
          refine ⟨hwf.1, wf_assoc_set s v hv rest hwf.2.1, ?_⟩
          intro e he
          rcases assoc_set_keys s v rest e he with h1 | ⟨w', hw'⟩
          · rw [h1]
            exact fun hks => hk hks.symm
          · exact hwf.2.2 (e.1, w') hw'

theorem enumFrom_shift {α : Type} :
    ∀ (l : List α) (k : Nat),
      l.enumFrom (k + 1) = (l.enumFrom k).map (fun p => (p.1 + 1, p.2))
  | [], _ => by simp
  | a :: as, k => by
      rw [List.enumFrom_cons, List.enumFrom_cons, enumFrom_shift as (k + 1), List.map_cons]

theorem enumFrom_one {α : Type} (l : List α) :
    l.enumFrom 1 = l.enum.map (fun p => (p.1 + 1, p.2)) :=
  enumFrom_shift l 0

theorem spec_level_singleton (x : String × PTree) (pre : String) :
    spec_level [x] pre =
      (pre ++ connector_of true ++ x.1) ::
        (match x.2 with
          | .leaf => ([] : List String)
          | .node es2 => [build_str (.node es2) (pre ++ continuation_of true)]) := by
  simp [spec_level, List.enum_cons]

theorem spec_level_cons (x e : String × PTree) (rest : List (String × PTree))
    (pre : String) :
    spec_level (x :: e :: rest) pre =
      ((pre ++ connector_of false ++ x.1) ::
        (match x.2 with
          | .leaf => ([] : List String)
          | .node es2 => [build_str (.node es2) (pre ++ continuation_of false)])) ++
      spec_level (e :: rest) pre := by
  unfold spec_level
  rw [List.enum_cons, List.flatMap_cons, enumFrom_one, List.flatMap_map]
  congr 1
  refine List.flatMap_congr ?_
  intro p hp
  have hc : (decide ((p.1 + 1, p.2).1 = (x :: e :: rest).length - 1)) =
      (decide (p.1 = (e :: rest).length - 1)) := by
    rw [decide_eq_decide]
    simp [List.length_cons]
  rw [hc]

theorem render_sorted_eq_spec_level :
    ∀ (l : List (String × PTree)) (pre : String),
      render_sorted l pre = spec_level l pre
  | [], pre => by simp [render_sorted, spec_level]
  | [(n, t)], pre => by
      rw [spec_level_singleton]
      cases t <;> simp [render_sorted, connector_of, continuation_of]
  | (n, t) :: e :: rest, pre => by
      rw [spec_level_cons]
      rw [← render_sorted_eq_spec_level (e :: rest) pre]
      cases t <;> simp [render_sorted, connector_of, continuation_of]

theorem lexLe_cons_iff (a b : Char) (as bs : List Char) :
    lexLe (a :: as) (b :: bs) = true ↔
      (a.toNat < b.toNat ∨ (a.toNat = b.toNat ∧ lexLe as bs = true)) := by
  simp only [lexLe]
  split
  · next h => simp [h]
  · next h =>
      split
      · next h2 =>
          constructor
          · intro hfalse
            cases hfalse
          · rintro (h3 | ⟨h3, _⟩) <;> omega
      · next h2 =>
          have heq : a.toNat = b.toNat := by omega
          simp [heq, h]

theorem lexLe_total : ∀ (a b : List Char), lexLe a b = true ∨ lexLe b a = true
  | [], _ => Or.inl rfl
  | _ :: _, [] => Or.inr rfl
  | a :: as, b :: bs => by
      rcases lexLe_total as bs with ih | ih
      · rcases Nat.lt_trichotomy a.toNat b.toNat with h | h | h
        · exact Or.inl ((lexLe_cons_iff a b as bs).mpr (Or.inl h))
        · exact Or.inl ((lexLe_cons_iff a b as bs).mpr (Or.inr ⟨h, ih⟩))
        · exact Or.inr ((lexLe_cons_iff b a bs as).mpr (Or.inl h))
      · rcases Nat.lt_trichotomy a.toNat b.toNat with h | h | h
        · exact Or.inl ((lexLe_cons_iff a b as bs).mpr (Or.inl h))
        · exact Or.inr ((lexLe_cons_iff b a bs as).mpr (Or.inr ⟨h.symm, ih⟩))
        · exact Or.inr ((lexLe_cons_iff b a bs as).mpr (Or.inl h))

theorem lexLe_trans : ∀ (a b c : List Char),
    lexLe a b = true → lexLe b c = true → lexLe a c = true
  | [], _, _ => fun _ _ => rfl
  | _ :: _, [], _ => by intro h _; simp [lexLe] at h
  | _ :: _, _ :: _, [] => by intro _ h; simp [lexLe] at h
  | a :: as, b :: bs, c :: cs => by
      intro h1 h2
      rw [lexLe_cons_iff] at h1 h2 ⊢
      rcases h1 with h1 | ⟨h1, h1t⟩ <;> rcases h2 with h2 | ⟨h2, h2t⟩
      · exact Or.inl (by omega)
      · exact Or.inl (by omega)
      · exact Or.inl (by omega)
      · exact Or.inr ⟨by omega, lexLe_trans as bs cs h1t h2t⟩

theorem sort_entries_sorted (es : List (String × PTree)) :
    List.Pairwise (fun a b : String × PTree => strLe a.1 b.1 = true)
      (sort_entries es) := by
  have htot : ∀ a b : String × PTree, strLe a.1 b.1 = true ∨ strLe b.1 a.1 = true :=
    fun a b => lexLe_total a.1.data b.1.data
  have htrans : ∀ a b c : String × PTree, strLe a.1 b.1 = true →
      strLe b.1 c.1 = true → strLe a.1 c.1 = true :=
    fun a b c => lexLe_trans a.1.data b.1.data c.1.data
  letI : IsTotal (String × PTree) (fun a b => strLe a.1 b.1 = true) := ⟨htot⟩
  letI : IsTrans (String × PTree) (fun a b => strLe a.1 b.1 = true) := ⟨htrans⟩
  exact List.sorted_insertionSort _ es

theorem sort_entries_perm (es : List (String × PTree)) :
    (sort_entries es).Perm es :=
  List.perm_insertionSort _ es

theorem assoc_set_entry_mem (s : String) (v : PTree) :
    ∀ (es : List (String × PTree)), wf_entries es →
      ∀ (n : String) (t : PTree),
        ((n, t) ∈ assoc_set s v es ↔ ((n = s ∧ t = v) ∨ ((n, t) ∈ es ∧ n ≠ s)))
  | [] => by
      intro _ n t
      constructor
      · intro h
        simp only [assoc_set, List.mem_singleton] at h
        cases h
        exact Or.inl ⟨rfl, rfl⟩
      · rintro (⟨rfl, rfl⟩ | ⟨hm, _⟩)
        · simp [assoc_set]
        · simp at hm
  | (k, w) :: rest => by
      intro hwf n t
      simp only [wf_entries] at hwf
      simp only [assoc_set]
      split
      · next hk =>
          subst hk
          constructor
          · intro h
            rcases List.mem_cons.mp h with heq | hm
            · cases heq
              exact Or.inl ⟨rfl, rfl⟩
            · refine Or.inr ⟨List.mem_cons_of_mem _ hm, ?_⟩
              exact hwf.2.2 (n, t) hm
          · rintro (⟨rfl, rfl⟩ | ⟨hm, hne⟩)
            · exact List.mem_cons_self _ _
            · rcases List.mem_cons.mp hm with heq | hm2
              · cases heq
                exact absurd rfl hne
              · exact List.mem_cons_of_mem _ hm2
      · next hk =>
          rw [List.mem_cons, assoc_set_entry_mem s v rest hwf.2.1 n t]
          constructor
          · rintro (heq | (⟨rfl, rfl⟩ | ⟨hm, hne⟩))
            · cases heq
              exact Or.inr ⟨List.mem_cons_self _ _, fun hks => hk hks⟩
            · exact Or.inl ⟨rfl, rfl⟩
            · exact Or.inr ⟨List.mem_cons_of_mem _ hm, hne⟩
          · rintro (⟨rfl, rfl⟩ | ⟨hm, hne⟩)
            · exact Or.inr (Or.inl ⟨rfl, rfl⟩)
            · rcases List.mem_cons.mp hm with heq | hm2
              · exact Or.inl heq
              · exact Or.inr (Or.inr ⟨hm2, hne⟩)

theorem mem_ptree_paths_tree_ne_nil {r : List String} {t : PTree}
    (h : r ∈ ptree_paths t) : r ≠ [] := by
  cases t with
  | leaf => simp [ptree_paths] at h
  | node es => exact mem_ptree_paths_entries_ne_nil h

theorem mem_leaf_paths_tree_ne_nil {r : List String} {t : PTree}
    (h : r ∈ leaf_paths t) : r ≠ [] := by
  cases t with
  | leaf => simp [leaf_paths] at h
  | node es => exact mem_leaf_paths_entries_ne_nil h

theorem mem_paths_assoc_set (s : String) (v : PTree) (es : List (String × PTree))
    (hwf : wf_entries es) (r : List String) :
    r ∈ ptree_paths_entries (assoc_set s v es) ↔
      ((r = [s] ∨ ∃ r', r = s :: r' ∧ r' ∈ ptree_paths v) ∨
        ∃ n t, (n, t) ∈ es ∧ n ≠ s ∧
          (r = [n] ∨ ∃ r', r = n :: r' ∧ r' ∈ ptree_paths t)) := by
  rw [mem_ptree_paths_entries]
  constructor
  · rintro ⟨n, t, hm, hh⟩
    rcases (assoc_set_entry_mem s v es hwf n t).mp hm with ⟨rfl, rfl⟩ | ⟨hm2, hne⟩
    · exact Or.inl hh
    · exact Or.inr ⟨n, t, hm2, hne, hh⟩
  · rintro (hh | ⟨n, t, hm, hne, hh⟩)
    · exact ⟨s, v, (assoc_set_entry_mem s v es hwf s v).mpr (Or.inl ⟨rfl, rfl⟩), hh⟩
    · exact ⟨n, t, (assoc_set_entry_mem s v es hwf n t).mpr (Or.inr ⟨hm, hne⟩), hh⟩

theorem mem_leaf_assoc_set (s : String) (v : PTree) (es : List (String × PTree))
    (hwf : wf_entries es) (r : List String) :
    r ∈ leaf_paths_entries (assoc_set s v es) ↔
      (((v = .leaf ∧ r = [s]) ∨ ∃ r', r = s :: r' ∧ r' ∈ leaf_paths v) ∨
        ∃ n t, (n, t) ∈ es ∧ n ≠ s ∧
          ((t = .leaf ∧ r = [n]) ∨ ∃ r', r = n :: r' ∧ r' ∈ leaf_paths t)) := by
  rw [mem_leaf_paths_entries]
  constructor
  · rintro ⟨n, t, hm, hh⟩
    rcases (assoc_set_entry_mem s v es hwf n t).mp hm with ⟨rfl, rfl⟩ | ⟨hm2, hne⟩
    · exact Or.inl hh
    · exact Or.inr ⟨n, t, hm2, hne, hh⟩
  · rintro (hh | ⟨n, t, hm, hne, hh⟩)
    · exact ⟨s, v, (assoc_set_entry_mem s v es hwf s v).mpr (Or.inl ⟨rfl, rfl⟩), hh⟩
    · exact ⟨n, t, (assoc_set_entry_mem s v es hwf n t).mpr (Or.inr ⟨hm, hne⟩), hh⟩

theorem insert_path_spec :
    ∀ (p : List String) (es : List (String × PTree)),
      p ≠ [] → wf_entries es →
      (∀ r ∈ leaf_paths_entries es, r <+: p → r = p) →
      (∀ r ∈ ptree_paths_entries es, p <+: r → p = r) →
      ∃ es', insert_path p (.node es) = .node es' ∧ wf_entries es' ∧
        (∀ r, r ∈ ptree_paths_entries es' ↔
          (r ∈ ptree_paths_entries es ∨ (r ≠ [] ∧ r <+: p))) ∧
        (∀ r, r ∈ leaf_paths_entries es' ↔ (r ∈ leaf_paths_entries es ∨ r = p))
  | [], _ => fun h _ _ _ => absurd rfl h
  | [s], es => by
      intro _ hwf hc3 hc4
      refine ⟨assoc_set s .leaf es, rfl, wf_assoc_set s .leaf True.intro es hwf, ?_, ?_⟩
      · intro r
        rw [mem_paths_assoc_set s .leaf es hwf r]
        constructor
        · rintro ((rfl | ⟨r', rfl, hr'⟩) | ⟨n, t, hm, hne, hh⟩)
          · exact Or.inr ⟨by simp, List.prefix_refl _⟩
          · simp [ptree_paths] at hr'
          · exact Or.inl ((mem_ptree_paths_entries r es).mpr ⟨n, t, hm, hh⟩)
        · rintro (hmem | ⟨hne, hpre⟩)
          · rcases (mem_ptree_paths_entries r es).mp hmem with ⟨n, t, hm, hh⟩
            by_cases hns : n = s
            · subst hns
              rcases hh with rfl | ⟨r', rfl, hr'⟩
              · exact Or.inl (Or.inl rfl)
              · exfalso
                have hp2 : [n] <+: n :: r' := ⟨r', rfl⟩
                have heq := hc4 (n :: r') hmem hp2
                simp only [List.cons.injEq] at heq
                exact mem_ptree_paths_tree_ne_nil hr' heq.2.symm
            · exact Or.inr ⟨n, t, hm, hns, hh⟩
          · rcases List.prefix_cons_iff.mp hpre with rfl | ⟨t2, rfl, ht2⟩
            · exact absurd rfl hne
            · have ht0 : t2 = [] := List.prefix_nil.mp ht2
              subst ht0
              exact Or.inl (Or.inl rfl)
      · intro r
        rw [mem_leaf_assoc_set s .leaf es hwf r]
        constructor
        · rintro ((⟨_, rfl⟩ | ⟨r', rfl, hr'⟩) | ⟨n, t, hm, hne, hh⟩)
          · exact Or.inr rfl
          · simp [leaf_paths] at hr'
          · exact Or.inl ((mem_leaf_paths_entries r es).mpr ⟨n, t, hm, hh⟩)
        · rintro (hmem | rfl)
          · rcases (mem_leaf_paths_entries r es).mp hmem with ⟨n, t, hm, hh⟩
            by_cases hns : n = s
            · subst hns
              rcases hh with ⟨rfl, rfl⟩ | ⟨r', rfl, hr'⟩
              · exact Or.inl (Or.inl ⟨rfl, rfl⟩)
              · exfalso
                have hp2 : [n] <+: n :: r' := ⟨r', rfl⟩
                have hpaths := leaf_paths_sub_ptree_paths es (n :: r') hmem
                have heq := hc4 (n :: r') hpaths hp2
                simp only [List.cons.injEq] at heq
                exact mem_leaf_paths_tree_ne_nil hr' heq.2.symm
            · exact Or.inr ⟨n, t, hm, hns, hh⟩
          · exact Or.inl (Or.inl ⟨rfl, rfl⟩)
  | s :: s2 :: q, es => by
      intro _ hwf hc3 hc4
      cases hlook : assoc_lookup s es with
      | some t =>
          cases t with
          | leaf =>
              exfalso
              have hmem_s : (s, PTree.leaf) ∈ es := assoc_lookup_mem s .leaf es hlook
              have hleafmem : [s] ∈ leaf_paths_entries es :=
                (mem_leaf_paths_entries [s] es).mpr ⟨s, .leaf, hmem_s, Or.inl ⟨rfl, rfl⟩⟩
              have hpre : [s] <+: s :: s2 :: q := ⟨s2 :: q, rfl⟩
              have heq := hc3 [s] hleafmem hpre
              simp only [List.cons.injEq] at heq
              exact List.noConfusion heq.2
          | node es2 =>
              have hmem_s : (s, PTree.node es2) ∈ es := assoc_lookup_mem s _ es hlook
              have hwf2 : wf_entries es2 := wf_entries_mem hwf hmem_s
              have hc3m : ∀ r ∈ leaf_paths_entries es2, r <+: s2 :: q → r = s2 :: q := by
                intro r hr hpre
                have hmem2 : s :: r ∈ leaf_paths_entries es :=
                  (mem_leaf_paths_entries (s :: r) es).mpr
                    ⟨s, .node es2, hmem_s, Or.inr ⟨r, rfl, hr⟩⟩
                have hpre2 : s :: r <+: s :: s2 :: q :=
                  List.cons_prefix_cons.mpr ⟨rfl, hpre⟩
                have heq := hc3 (s :: r) hmem2 hpre2
                simp only [List.cons.injEq] at heq
                exact heq.2
              have hc4m : ∀ r ∈ ptree_paths_entries es2, s2 :: q <+: r → s2 :: q = r := by
                intro r hr hpre
                have hmem2 : s :: r ∈ ptree_paths_entries es :=
                  (mem_ptree_paths_entries (s :: r) es).mpr
                    ⟨s, .node es2, hmem_s, Or.inr ⟨r, rfl, hr⟩⟩
                have hpre2 : s :: s2 :: q <+: s :: r :=
                  List.cons_prefix_cons.mpr ⟨rfl, hpre⟩
                have heq := hc4 (s :: r) hmem2 hpre2
                simp only [List.cons.injEq] at heq
                exact heq.2
              obtain ⟨es2m, heq2, hwf2m, hpiff2, hliff2⟩ :=
                insert_path_spec (s2 :: q) es2 (by simp) hwf2 hc3m hc4m
              refine ⟨assoc_set s (.node es2m) es, ?_, ?_, ?_, ?_⟩
              · have h1 : insert_path (s :: s2 :: q) (.node es) =
                    .node (assoc_set s (insert_path (s2 :: q) (PTree.node es2)) es) := by
                  simp only [insert_path, hlook]
                rw [h1, heq2]
              · exact wf_assoc_set s (.node es2m) hwf2m es hwf
              · intro r
                rw [mem_paths_assoc_set s (.node es2m) es hwf r]
                constructor
                · rintro ((rfl | ⟨r', rfl, hr'⟩) | ⟨n, t, hm, hne, hh⟩)
                  · exact Or.inr ⟨by simp, ⟨s2 :: q, rfl⟩⟩
                  · rcases (hpiff2 r').mp hr' with hmem2 | ⟨hne2, hpre2⟩
                    · exact Or.inl ((mem_ptree_paths_entries _ es).mpr
                        ⟨s, .node es2, hmem_s, Or.inr ⟨r', rfl, hmem2⟩⟩)
                    · exact Or.inr ⟨by simp, List.cons_prefix_cons.mpr ⟨rfl, hpre2⟩⟩
                  · exact Or.inl ((mem_ptree_paths_entries _ es).mpr ⟨n, t, hm, hh⟩)
                · rintro (hmem | ⟨hne, hpre⟩)
                  · rcases (mem_ptree_paths_entries r es).mp hmem with ⟨n, t, hm, hh⟩
                    by_cases hns : n = s
                    · subst hns
                      have ht : t = PTree.node es2 := wf_entries_key_unique hwf hm hmem_s
                      subst ht
                      rcases hh with rfl | ⟨r', rfl, hr'⟩
                      · exact Or.inl (Or.inl rfl)
                      · exact Or.inl (Or.inr ⟨r', rfl, (hpiff2 r').mpr (Or.inl hr')⟩)
                    · exact Or.inr ⟨n, t, hm, hns, hh⟩
                  · rcases List.prefix_cons_iff.mp hpre with rfl | ⟨t2, rfl, ht2⟩
                    · exact absurd rfl hne
                    · cases t2 with
                      | nil => exact Or.inl (Or.inl rfl)
                      | cons a as =>
                          exact Or.inl (Or.inr ⟨a :: as, rfl,
                            (hpiff2 (a :: as)).mpr (Or.inr ⟨by simp, ht2⟩)⟩)
              · intro r
                rw [mem_leaf_assoc_set s (.node es2m) es hwf r]
                constructor
                · rintro ((⟨habs, _⟩ | ⟨r', rfl, hr'⟩) | ⟨n, t, hm, hne, hh⟩)
                  · exact PTree.noConfusion habs
                  · rcases (hliff2 r').mp hr' with hmem2 | rfl
                    · exact Or.inl ((mem_leaf_paths_entries _ es).mpr
                        ⟨s, .node es2, hmem_s, Or.inr ⟨r', rfl, hmem2⟩⟩)
                    · exact Or.inr rfl
                  · exact Or.inl ((mem_leaf_paths_entries _ es).mpr ⟨n, t, hm, hh⟩)
                · rintro (hmem | rfl)
                  · rcases (mem_leaf_paths_entries r es).mp hmem with ⟨n, t, hm, hh⟩
                    by_cases hns : n = s
                    · subst hns
                      have ht : t = PTree.node es2 := wf_entries_key_unique hwf hm hmem_s
                      subst ht
                      rcases hh with ⟨habs, _⟩ | ⟨r', rfl, hr'⟩
                      · exact PTree.noConfusion habs
                      · exact Or.inl (Or.inr ⟨r', rfl, (hliff2 r').mpr (Or.inl hr')⟩)
                    · exact Or.inr ⟨n, t, hm, hns, hh⟩
                  · exact Or.inl (Or.inr ⟨s2 :: q, rfl, (hliff2 (s2 :: q)).mpr (Or.inr rfl)⟩)
      | none =>
          have hno : ∀ t, (s, t) ∉ es := assoc_lookup_none s es hlook
          obtain ⟨es2m, heq2, hwf2m, hpiff2, hliff2⟩ :=
            insert_path_spec (s2 :: q) [] (by simp) True.intro
              (by intro r hr; simp [leaf_paths_entries] at hr)
              (by intro r hr; simp [ptree_paths_entries] at hr)
          refine ⟨assoc_set s (.node es2m) es, ?_, ?_, ?_, ?_⟩
          · have h1 : insert_path (s :: s2 :: q) (.node es) =
                .node (assoc_set s (insert_path (s2 :: q) (PTree.node [])) es) := by
              simp only [insert_path, hlook]
            rw [h1, heq2]
          · exact wf_assoc_set s (.node es2m) hwf2m es hwf
          · intro r
            rw [mem_paths_assoc_set s (.node es2m) es hwf r]
            constructor
            · rintro ((rfl | ⟨r', rfl, hr'⟩) | ⟨n, t, hm, hne, hh⟩)
              · exact Or.inr ⟨by simp, ⟨s2 :: q, rfl⟩⟩
              · rcases (hpiff2 r').mp hr' with hmem2 | ⟨hne2, hpre2⟩
                · simp [ptree_paths_entries] at hmem2
                · exact Or.inr ⟨by simp, List.cons_prefix_cons.mpr ⟨rfl, hpre2⟩⟩
              · exact Or.inl ((mem_ptree_paths_entries _ es).mpr ⟨n, t, hm, hh⟩)
            · rintro (hmem | ⟨hne, hpre⟩)
              · rcases (mem_ptree_paths_entries r es).mp hmem with ⟨n, t, hm, hh⟩
                by_cases hns : n = s
                · subst hns
                  exact absurd hm (hno t)
                · exact Or.inr ⟨n, t, hm, hns, hh⟩
              · rcases List.prefix_cons_iff.mp hpre with rfl | ⟨t2, rfl, ht2⟩
                · exact absurd rfl hne
                · cases t2 with
                  | nil => exact Or.inl (Or.inl rfl)
                  | cons a as =>
                      exact Or.inl (Or.inr ⟨a :: as, rfl,
                        (hpiff2 (a :: as)).mpr (Or.inr ⟨by simp, ht2⟩)⟩)
          · intro r
            rw [mem_leaf_assoc_set s (.node es2m) es hwf r]
            constructor
            · rintro ((⟨habs, _⟩ | ⟨r', rfl, hr'⟩) | ⟨n, t, hm, hne, hh⟩)
              · exact PTree.noConfusion habs
              · rcases (hliff2 r').mp hr' with hmem2 | rfl
                · simp [leaf_paths_entries] at hmem2
                · exact Or.inr rfl
              · exact Or.inl ((mem_leaf_paths_entries _ es).mpr ⟨n, t, hm, hh⟩)
            · rintro (hmem | rfl)
              · rcases (mem_leaf_paths_entries r es).mp hmem with ⟨n, t, hm, hh⟩
                by_cases hns : n = s
                · subst hns
                  exact absurd hm (hno t)
                · exact Or.inr ⟨n, t, hm, hns, hh⟩
              · exact Or.inl (Or.inr ⟨s2 :: q, rfl, (hliff2 (s2 :: q)).mpr (Or.inr rfl)⟩)

theorem build_tree_aux :
    ∀ (todo done : List (List String)),
      valid_selection (done ++ todo) →
      ∀ (es : List (String × PTree)), wf_entries es →
        (∀ r, r ∈ ptree_paths_entries es ↔ (r ≠ [] ∧ ∃ s ∈ done, r <+: s)) →
        (∀ r, r ∈ leaf_paths_entries es ↔ r ∈ done) →
        ∃ es', todo.foldl (fun t p => insert_path p t) (.node es) = .node es' ∧
          wf_entries es' ∧
          (∀ r, r ∈ ptree_paths_entries es' ↔
            (r ≠ [] ∧ ∃ s ∈ done ++ todo, r <+: s)) ∧
          (∀ r, r ∈ leaf_paths_entries es' ↔ r ∈ done ++ todo)
  | [], done => by
      intro hv es hwf hp hl
      exact ⟨es, rfl, hwf, by simpa using hp, by simpa using hl⟩
  | p :: todo, done => by
      intro hv es hwf hp hl
      have hpne : p ≠ [] := hv.1 p (by simp)
      have hc3 : ∀ r ∈ leaf_paths_entries es, r <+: p → r = p := by
        intro r hr hpre
        have hrdone : r ∈ done := (hl r).mp hr
        exact hv.2 r (by simp [hrdone]) p (by simp) hpre
      have hc4 : ∀ r ∈ ptree_paths_entries es, p <+: r → p = r := by
        intro r hr hpre
        rcases (hp r).mp hr with ⟨hne, s0, hs0, hpre0⟩
        have hps0 : p <+: s0 := hpre.trans hpre0
        have hps : p = s0 := hv.2 p (by simp) s0 (by simp [hs0]) hps0
        subst hps
        exact hpre.eq_of_length (Nat.le_antisymm hpre.length_le hpre0.length_le)
      obtain ⟨es1, heq1, hwf1, hp1, hl1⟩ := insert_path_spec p es hpne hwf hc3 hc4
      have hv2 : valid_selection ((done ++ [p]) ++ todo) := by
        rw [List.append_assoc]
        exact hv
      have hp1m : ∀ r, r ∈ ptree_paths_entries es1 ↔
          (r ≠ [] ∧ ∃ s ∈ done ++ [p], r <+: s) := by
        intro r
        rw [hp1 r]
        constructor
        · rintro (hmem | ⟨hne, hpre⟩)
          · rcases (hp r).mp hmem with ⟨hne, s0, hs0, hpre0⟩
            exact ⟨hne, s0, by simp [hs0], hpre0⟩
          · exact ⟨hne, p, by simp, hpre⟩
        · rintro ⟨hne, s0, hs0, hpre0⟩
          rcases List.mem_append.mp hs0 with h | h
          · exact Or.inl ((hp r).mpr ⟨hne, s0, h, hpre0⟩)
          · rw [List.mem_singleton] at h
            subst h
            exact Or.inr ⟨hne, hpre0⟩
      have hl1m : ∀ r, r ∈ leaf_paths_entries es1 ↔ r ∈ done ++ [p] := by
        intro r
        rw [hl1 r, hl r]
        simp
      obtain ⟨es', heq', hwf', hp', hl'⟩ :=
        build_tree_aux todo (done ++ [p]) hv2 es1 hwf1 hp1m hl1m
      have hE : (done ++ [p]) ++ todo = done ++ p :: todo := by simp
      refine ⟨es', ?_, hwf', ?_, ?_⟩
      · simp only [List.foldl_cons]
        rw [heq1]
        exact heq'
      · intro r
        rw [hp' r, hE]
      · intro r
        rw [hl' r, hE]

theorem build_tree_spec_aux (sel : List (List String)) (hv : valid_selection sel) :
    ∃ es', build_tree sel = .node es' ∧ wf_entries es' ∧
      (∀ r, r ∈ ptree_paths_entries es' ↔ (r ≠ [] ∧ ∃ s ∈ sel, r <+: s)) ∧
      (∀ r, r ∈ leaf_paths_entries es' ↔ r ∈ sel) := by
  obtain ⟨es', heq, hwf, hp, hl⟩ :=
    build_tree_aux sel [] (by simpa using hv) [] True.intro
      (by intro r; simp [ptree_paths_entries])
      (by intro r; simp [leaf_paths_entries])
  refine ⟨es', heq, hwf, ?_, ?_⟩
  · intro r
    rw [hp r]
    simp
  · intro r
    rw [hl r]
    simp

/-- Claim C8: `_generate_tree_structure` renders exactly the path-prefix tree
of the currently checked files' root-relative paths.  With `sel` the checked
paths of `check_values` (in order), under the section-3 invariant that
distinct selected filesystem paths never extend one another: (a) when no file
is checked the tree block is omitted entirely; (b) the nodes of the rendered
tree are exactly the nonempty prefixes of checked paths — every ancestor
segment of a checked file appears, and no segment of an unchecked-only path
appears; (c) its leaves are exactly the checked paths; (d) every level is
rendered from its sibling entries sorted lexicographically by name, the last
sibling with the corner connector and the others with the tee connector, and
nested levels under a sibling add that sibling's continuation token, exactly
as the spec's rendering rule states; (e) when at least one file is checked
the output is the header, the root name, the rendered tree and the closing
fence. -/
theorem c8_generation_renders_prefix_tree
    (rootName : String) (cv : List (List String × Bool))
    (sel : List (List String))
    (hsel : sel = (cv.filter (fun e => e.2)).map (fun e => e.1))
    (hv : valid_selection sel) :
    (sel = [] → generate_tree_structure rootName cv = "") ∧
    (∀ r, r ∈ ptree_paths (build_tree sel) ↔ (r ≠ [] ∧ ∃ s ∈ sel, r <+: s)) ∧
    (∀ r, r ∈ leaf_paths (build_tree sel) ↔ r ∈ sel) ∧
    (∀ (es : List (String × PTree)) (pre : String),
        build_str (.node es) pre =
          String.intercalate "\n" (spec_level (sort_entries es) pre)) ∧
    (∀ es : List (String × PTree),
        List.Pairwise (fun a b : String × PTree => strLe a.1 b.1 = true)
          (sort_entries es) ∧ (sort_entries es).Perm es) ∧
    (sel ≠ [] → generate_tree_structure rootName cv =
        "# Directory Structure\n```\n" ++ rootName ++ "\n" ++
          build_str (build_tree sel) "" ++ "\n```\n\n") := by
  obtain ⟨es', heq, hwf, hp, hl⟩ := build_tree_spec_aux sel hv
  refine ⟨?_, ?_, ?_, ?_, ?_, ?_⟩
  · intro h0
    have hex : (cv.filter (fun e => e.2)).map (fun e => e.1) = [] :=
      hsel.symm.trans h0
    simp only [generate_tree_structure]
    rw [hex]
    rfl
  · intro r
    rw [heq]
    exact hp r
  · intro r
    rw [heq]
    exact hl r
  · intro es pre
    have h1 : build_str (.node es) pre =
        String.intercalate "\n" (render_sorted (sort_entries es) pre) := by
      simp [build_str]
    rw [h1, render_sorted_eq_spec_level]
  · intro es
    exact ⟨sort_entries_sorted es, sort_entries_perm es⟩
  · intro hne0
    have hesne : es' ≠ [] := by
      intro h0
      subst h0
      cases sel with
      | nil => exact hne0 rfl
      | cons p ps =>
          have hmem := (hl p).mpr (by simp)
          simp [leaf_paths_entries] at hmem
    simp only [generate_tree_structure]
    rw [← hsel, heq]
    cases es' with
    | nil => exact absurd rfl hesne
    | cons a l => rfl

/-- Witness for C8: the spec's Scenario A.  `docs/readme.md` is checked and
`docs/img/logo.png` is not: the output contains `docs` and `readme.md` under
the corner connectors, the checked path is a leaf of the prefix tree, and the
`img` branch of the unchecked file does not appear at all. -/
theorem c8_witness :
    generate_tree_structure "root"
        [(["docs", "readme.md"], true), (["docs", "img", "logo.png"], false)] =
      "# Directory Structure\n```\nroot\n└── docs\n    └── readme.md\n```\n\n" ∧
    ["docs", "readme.md"] ∈ leaf_paths (build_tree [["docs", "readme.md"]]) ∧
    ["docs", "img"] ∉ ptree_paths (build_tree [["docs", "readme.md"]]) := by
  have h := c8_generation_renders_prefix_tree "root"
      [(["docs", "readme.md"], true), (["docs", "img", "logo.png"], false)]
      [["docs", "readme.md"]] (by decide)
      (by
        refine ⟨?_, ?_⟩
        · intro p hp
          rw [List.mem_singleton] at hp
          subst hp
          simp
        · intro p hp p2 hp2 hpre
          rw [List.mem_singleton] at hp hp2
          subst hp
          subst hp2
          rfl)
  refine ⟨?_, ?_, ?_⟩
  · have he := h.2.2.2.2.2 (by simp)
    rw [he]
    have ht : build_tree [["docs", "readme.md"]] =
        .node [("docs", .node [("readme.md", .leaf)])] := rfl
    rw [ht]
    have hb : build_str (.node [("docs", .node [("readme.md", .leaf)])]) "" =
        "└── docs\n    └── readme.md" := by
      simp [build_str, render_sorted, sort_entries, pySort, List.insertionSort,
        List.orderedInsert, strLe, lexLe]
      rfl
    rw [hb]
    rfl
  · exact (h.2.2.1 ["docs", "readme.md"]).mpr (by simp)
  · intro hmem
    rcases (h.2.1 ["docs", "img"]).mp hmem with ⟨hne, s0, hs0, hpre⟩
    rw [List.mem_singleton] at hs0
    subst hs0
    rcases List.cons_prefix_cons.mp hpre with ⟨h1, h2⟩
    rcases List.cons_prefix_cons.mp h2 with ⟨h3, h4⟩
    exact absurd h3 (by decide)

end MdCollector
